import Mathlib

/-!
# pddikti-goland: the record-extraction core of `route/carimahasiswa.go`

A shallow embedding of the extraction functions of `route/carimahasiswa.go`
(`extractUniversityToken`, `extractMahasiswaData`, `extractFromTable`,
`extractFromDivResults`, `cleanHTML`, `extractValue`) together with the parts
of Go's `strings`, `unicode/utf8` and `regexp` packages they call.

A Go `string` is an immutable sequence of bytes; it is embedded as a list of
byte values (natural numbers; a theorem on every list holds on every list of
bytes).  A run-time panic (slice bounds out of range) is embedded as `none`.
The Unicode case tables behind `unicode.ToLower`, which belong to the standard
library, are the parameter `caseTable` of the functions that lower-case text;
the theorems hold for every table.
-/

namespace Pddikti

/-! ## Go strings -/

/-- A Go string: a sequence of bytes. -/
abbrev Str := List Nat

/-- The bytes of an ASCII string literal of the source. -/
def lit (s : String) : Str := s.toList.map Char.toNat

/-- Go's `strings.Index(s, sub)`: the byte index of the first occurrence of
`sub` in `s`; `none` stands for Go's `-1`. -/
def stringsIndex : Str → Str → Option Nat
  | [], sub => if sub = [] then some 0 else none
  | b :: t, sub =>
    if sub.isPrefixOf (b :: t) then some 0 else (stringsIndex t sub).map (· + 1)

/-- Go's `strings.Contains(s, sub)`, which is `strings.Index(s, sub) >= 0`. -/
def stringsContains (s sub : Str) : Bool := (stringsIndex s sub).isSome

/-- Go's `strings.Split(s, "\n")`: the pieces of `s` between newline bytes
(one more piece than there are newlines). -/
def splitLines : Str → List Str
  | [] => [[]]
  | b :: t =>
    if b = 10 then [] :: splitLines t
    else
      match splitLines t with
      | [] => [[b]]
      | l :: ls => (b :: l) :: ls

/-- Go's `strings.ReplaceAll(s, old, new)` for a non-empty `old`: every
non-overlapping occurrence of `old`, found left to right, is replaced by `new`.
The first argument counts the bytes of an occurrence still to be skipped. -/
def replaceAllFrom (old new : Str) : Nat → Str → Str
  | _, [] => []
  | k + 1, _ :: t => replaceAllFrom old new k t
  | 0, b :: t =>
    if old.isPrefixOf (b :: t) then new ++ replaceAllFrom old new (old.length - 1) t
    else b :: replaceAllFrom old new 0 t

/-- Go's `strings.ReplaceAll`. -/
def stringsReplaceAll (s old new : Str) : Str := replaceAllFrom old new 0 s

/-! ## UTF-8 and case mapping (`unicode/utf8`, `unicode`, `strings.ToLower`) -/

/-- Go's `utf8.RuneError`, U+FFFD. -/
def RuneError : Nat := 0xFFFD

/-- Go's `utf8.DecodeRuneInString`: the first rune of `s` and its width in
bytes.  An invalid or truncated encoding (also an over-long form or a
surrogate) gives `(RuneError, 1)`; the empty string gives `(RuneError, 0)`. -/
def decodeRune : Str → Nat × Nat
  | [] => (RuneError, 0)
  | s0 :: rest =>
    if s0 < 0x80 then (s0, 1)
    else if s0 < 0xC2 then (RuneError, 1)
    else if s0 ≤ 0xDF then
      match rest with
      | s1 :: _ =>
        if 0x80 ≤ s1 ∧ s1 ≤ 0xBF then ((s0 % 0x20) * 0x40 + s1 % 0x40, 2)
        else (RuneError, 1)
      | [] => (RuneError, 1)
    else if s0 ≤ 0xEF then
      match rest with
      | s1 :: s2 :: _ =>
        if (if s0 = 0xE0 then 0xA0 else 0x80) ≤ s1
            ∧ s1 ≤ (if s0 = 0xED then 0x9F else 0xBF)
            ∧ 0x80 ≤ s2 ∧ s2 ≤ 0xBF then
          ((s0 % 0x10) * 0x1000 + (s1 % 0x40) * 0x40 + s2 % 0x40, 3)
        else (RuneError, 1)
      | _ => (RuneError, 1)
    else if s0 ≤ 0xF4 then
      match rest with
      | s1 :: s2 :: s3 :: _ =>
        if (if s0 = 0xF0 then 0x90 else 0x80) ≤ s1
            ∧ s1 ≤ (if s0 = 0xF4 then 0x8F else 0xBF)
            ∧ 0x80 ≤ s2 ∧ s2 ≤ 0xBF ∧ 0x80 ≤ s3 ∧ s3 ≤ 0xBF then
          ((s0 % 0x08) * 0x40000 + (s1 % 0x40) * 0x1000 + (s2 % 0x40) * 0x40
            + s3 % 0x40, 4)
        else (RuneError, 1)
      | _ => (RuneError, 1)
    else (RuneError, 1)

/-- Go's `utf8.AppendRune`: the UTF-8 encoding of a rune; a surrogate or a
value above U+10FFFF is written as U+FFFD. -/
def encodeRune (r : Nat) : Str :=
  if r ≤ 0x7F then [r]
  else if r ≤ 0x7FF then [0xC0 + r / 0x40, 0x80 + r % 0x40]
  else if 0x10FFFF < r ∨ (0xD800 ≤ r ∧ r ≤ 0xDFFF) then [0xEF, 0xBF, 0xBD]
  else if r ≤ 0xFFFF then [0xE0 + r / 0x1000, 0x80 + (r / 0x40) % 0x40, 0x80 + r % 0x40]
  else [0xF0 + r / 0x40000, 0x80 + (r / 0x1000) % 0x40, 0x80 + (r / 0x40) % 0x40,
        0x80 + r % 0x40]

/-- Go's `unicode.ToLower`.  ASCII is mapped in line as in the library; the
Unicode case tables of the standard library, which decide every other rune,
are the parameter `caseTable`.  U+FFFD is in no case range and is its own
lower case. -/
def unicodeToLower (caseTable : Nat → Nat) (r : Nat) : Nat :=
  if r ≤ 0x7F then (if 0x41 ≤ r ∧ r ≤ 0x5A then r + 0x20 else r)
  else if r = RuneError then r
  else caseTable r

/-- Go's `strings.Map(f, s)`: the runes of `s` are decoded in turn (an invalid
byte is the rune U+FFFD of width 1), mapped by `f` and encoded again.  The
first argument counts the bytes of the current rune still to be skipped. -/
def mapRunes (f : Nat → Nat) : Nat → Str → Str
  | _, [] => []
  | k + 1, _ :: t => mapRunes f k t
  | 0, b :: t =>
    encodeRune (f (decodeRune (b :: t)).1) ++ mapRunes f ((decodeRune (b :: t)).2 - 1) t

/-- Go's `strings.ToLower(s)`, which is `strings.Map(unicode.ToLower, s)`
(the library's ASCII fast path computes the same bytes). -/
def stringsToLower (caseTable : Nat → Nat) (s : Str) : Str :=
  mapRunes (unicodeToLower caseTable) 0 s

/-- Go's `unicode.IsSpace`: the Unicode White_Space code points. -/
def isSpaceRune (r : Nat) : Bool :=
  (0x09 ≤ r ∧ r ≤ 0x0D) ∨ r = 0x20 ∨ r = 0x85 ∨ r = 0xA0 ∨ r = 0x1680
    ∨ (0x2000 ≤ r ∧ r ≤ 0x200A) ∨ r = 0x2028 ∨ r = 0x2029 ∨ r = 0x202F
    ∨ r = 0x205F ∨ r = 0x3000

/-- Go's `utf8.RuneStart`: the byte is not a continuation byte. -/
def runeStart (b : Nat) : Bool := decide (¬ (0x80 ≤ b ∧ b ≤ 0xBF))

/-- The check at the end of `utf8.DecodeLastRuneInString`: the candidate bytes
`seg` are the last rune only if they decode to a rune of exactly their length. -/
def lastRuneOf (seg : Str) : Nat × Nat :=
  if (decodeRune seg).2 = seg.length then decodeRune seg else (RuneError, 1)

/-- Go's `utf8.DecodeLastRuneInString`, on the REVERSED string: the last rune
and its width.  The library walks back over at most three continuation bytes
to a start byte and decodes forward from there. -/
def decodeLastRune : Str → Nat × Nat
  | [] => (RuneError, 0)
  | b0 :: rest =>
    if b0 < 0x80 then (b0, 1)
    else
      match rest with
      | [] => (RuneError, 1)
      | b1 :: rest1 =>
        if runeStart b1 then lastRuneOf [b1, b0]
        else
          match rest1 with
          | [] => (RuneError, 1)
          | b2 :: rest2 =>
            if runeStart b2 then lastRuneOf [b2, b1, b0]
            else
              match rest2 with
              | [] => (RuneError, 1)
              | b3 :: _ =>
                if runeStart b3 then lastRuneOf [b3, b2, b1, b0] else (RuneError, 1)

/-- Go's `strings.TrimLeftFunc(s, unicode.IsSpace)`: leading white-space runes
are dropped.  The first argument counts the bytes of the current rune still to
be dropped. -/
def trimLeftFrom : Nat → Str → Str
  | _, [] => []
  | k + 1, _ :: t => trimLeftFrom k t
  | 0, b :: t =>
    if isSpaceRune (decodeRune (b :: t)).1 then trimLeftFrom ((decodeRune (b :: t)).2 - 1) t
    else b :: t

/-- Go's `strings.TrimRightFunc(s, unicode.IsSpace)` on the REVERSED string. -/
def trimRightRevFrom : Nat → Str → Str
  | _, [] => []
  | k + 1, _ :: t => trimRightRevFrom k t
  | 0, b :: t =>
    if isSpaceRune (decodeLastRune (b :: t)).1 then
      trimRightRevFrom ((decodeLastRune (b :: t)).2 - 1) t
    else b :: t

/-- Go's `strings.TrimSpace(s)`: leading, then trailing Unicode white space is
removed (the library's ASCII fast path computes the same bytes). -/
def stringsTrimSpace (s : Str) : Str :=
  (trimRightRevFrom 0 (trimLeftFrom 0 s).reverse).reverse

/-! ## The regular expressions of the source (`regexp`)

Go's `regexp` finds the leftmost match and, among the matches that start
there, the one a backtracking search would find first.  It reads the text as
UTF-8, an invalid byte being a rune of width 1; every literal and class of the
four expressions of the source is ASCII and the negated class and the dot take
any rune, so matching byte by byte finds the same matches.  Each expression is
embedded as its anchored matcher. -/

/-- Go's `FindAllStringSubmatch(s, -1)`, first capture group only: the
successive leftmost non-overlapping matches.  `matchAt` is the anchored matcher
(capture, length of the whole match; no expression of the source matches the
empty string); the first argument counts the bytes of the current match still
to be skipped. -/
def findAllFrom (matchAt : Str → Option (Str × Nat)) : Nat → Str → List Str
  | _, [] => []
  | k + 1, _ :: t => findAllFrom matchAt k t
  | 0, b :: t =>
    match matchAt (b :: t) with
    | some (cap, len) => cap :: findAllFrom matchAt (len - 1) t
    | none => findAllFrom matchAt 0 t

/-- Go's `FindStringSubmatch(s)`, first capture group only: the leftmost
match, `none` where the library returns `nil`. -/
def findFirst (matchAt : Str → Option (Str × Nat)) : Str → Option Str
  | [] => none
  | b :: t =>
    match matchAt (b :: t) with
    | some (cap, _) => some cap
    | none => findFirst matchAt t

/-- Go's `ReplaceAllString(s, "")`: the successive leftmost non-overlapping
matches are deleted.  `matchLen` is the anchored matcher (length of the match). -/
def removeAllFrom (matchLen : Str → Option Nat) : Nat → Str → Str
  | _, [] => []
  | k + 1, _ :: t => removeAllFrom matchLen k t
  | 0, b :: t =>
    match matchLen (b :: t) with
    | some len => removeAllFrom matchLen (len - 1) t
    | none => b :: removeAllFrom matchLen 0 t

/-- The class `[A-Za-z0-9_-]`. -/
def isTokenByte (b : Nat) : Bool :=
  (0x41 ≤ b ∧ b ≤ 0x5A) ∨ (0x61 ≤ b ∧ b ≤ 0x7A) ∨ (0x30 ≤ b ∧ b ≤ 0x39) ∨ b = 0x5F ∨ b = 0x2D

/-- The expression `/detail-pt/([A-Za-z0-9_-]+={0,2})` anchored at the start of
`s`: the literal, the longest run of class bytes (at least one), then as many
`=` as there are, at most two.  Both repetitions are greedy and what follows
them cannot fail, so the first attempt is the match. -/
def tokenMatchAt (s : Str) : Option (Str × Nat) :=
  if (lit "/detail-pt/").isPrefixOf s then
    let rest := s.drop 11
    let run := rest.takeWhile isTokenByte
    let pad := ((rest.dropWhile isTokenByte).takeWhile (· == 0x3D)).take 2
    if run = [] then none else some (run ++ pad, 11 + run.length + pad.length)
  else none

/-- The expression `<[^>]*>` anchored at the start of `s`: a `<`, then
everything up to and including the next `>`. -/
def tagMatchLen : Str → Option Nat
  | [] => none
  | b :: t => if b = 0x3C then (stringsIndex t (lit ">")).map (· + 2) else none

/-- The expression `(?s)<tr[^>]*>(.*?)</tr>` anchored at the start of `s`: the
opening tag runs to the next `>`, the lazy group to the first `</tr>` after
it.  The expression has no `(?i)` flag: the tag is matched in lower case only. -/
def rowMatchAt (s : Str) : Option (Str × Nat) :=
  if (lit "<tr").isPrefixOf s then
    match stringsIndex (s.drop 3) (lit ">") with
    | none => none
    | some i =>
      match stringsIndex (s.drop (3 + i + 1)) (lit "</tr>") with
      | none => none
      | some j => some ((s.drop (3 + i + 1)).take j, 3 + i + 1 + j + 5)
  else none

/-- The index of the first `</td>` or `</th>` in `s`. -/
def cellCloseIndex : Str → Option Nat
  | [] => none
  | b :: t =>
    if (lit "</td>").isPrefixOf (b :: t) || (lit "</th>").isPrefixOf (b :: t) then some 0
    else (cellCloseIndex t).map (· + 1)

/-- The expression `(?s)<t[dh][^>]*>(.*?)</t[dh]>` anchored at the start of
`s`: the opening tag runs to the next `>`, the lazy group to the first `</td>`
or `</th>` after it. -/
def cellMatchAt (s : Str) : Option (Str × Nat) :=
  if (lit "<td").isPrefixOf s || (lit "<th").isPrefixOf s then
    match stringsIndex (s.drop 3) (lit ">") with
    | none => none
    | some i =>
      match cellCloseIndex (s.drop (3 + i + 1)) with
      | none => none
      | some j => some ((s.drop (3 + i + 1)).take j, 3 + i + 1 + j + 5)
  else none

/-! ## The functions of `route/carimahasiswa.go` -/

/-- The struct `MahasiswaResult`. -/
structure MahasiswaResult where
  Name : Str
  NIM : Str
  University : Str
  Program : Str
  deriving DecidableEq, Repr

/-- The function `extractUniversityToken`. -/
def extractUniversityToken (html : Str) : Str :=
  match findFirst tokenMatchAt html with
  | some token => token
  | none => []

/-- The function `cleanHTML`: tags are deleted, then the six entities are
decoded in the order of the source, then white space is trimmed. -/
def cleanHTML (s : Str) : Str :=
  let cleaned := removeAllFrom tagMatchLen 0 s
  let cleaned := stringsReplaceAll cleaned (lit "&amp;") (lit "&")
  let cleaned := stringsReplaceAll cleaned (lit "&lt;") (lit "<")
  let cleaned := stringsReplaceAll cleaned (lit "&gt;") (lit ">")
  let cleaned := stringsReplaceAll cleaned (lit "&quot;") (lit "\"")
  let cleaned := stringsReplaceAll cleaned (lit "&#39;") [0x27]
  let cleaned := stringsReplaceAll cleaned (lit "&nbsp;") (lit " ")
  stringsTrimSpace cleaned

/-- The function `extractValue`. -/
def extractValue (line : Str) : Str :=
  match stringsIndex line (lit ":") with
  | some idx => if idx + 1 < line.length then stringsTrimSpace (line.drop (idx + 1)) else line
  | none => line

/-- The record built from one table row in the loop body of `extractFromTable`
(`row` is the capture `row[1]`); `none` when the row adds nothing. -/
def rowRecord (row : Str) : Option MahasiswaResult :=
  match findAllFrom cellMatchAt 0 row with
  | c0 :: c1 :: c2 :: more =>
    let result : MahasiswaResult :=
      { Name := cleanHTML c0, NIM := cleanHTML c1, University := cleanHTML c2,
        Program := match more with
          | c3 :: _ => cleanHTML c3
          | [] => [] }
    if result.Name ≠ [] ∨ result.NIM ≠ [] then some result else none
  | _ => none

/-- The function `extractFromTable`: row 0 is skipped. -/
def extractFromTable (tableHTML : Str) : List MahasiswaResult :=
  ((findAllFrom rowMatchAt 0 tableHTML).drop 1).filterMap rowRecord

/-- The zero value `MahasiswaResult{}`. -/
def emptyResult : MahasiswaResult := { Name := [], NIM := [], University := [], Program := [] }

/-- The test `currentResult.Name != "" && (currentResult.NIM != "" ||
currentResult.University != "")` of `extractFromDivResults`. -/
def complete (r : MahasiswaResult) : Bool :=
  decide (r.Name ≠ [] ∧ (r.NIM ≠ [] ∨ r.University ≠ []))

/-- The if/else-if chain of the loop body of `extractFromDivResults`. -/
def assignField (caseTable : Nat → Nat) (cur : MahasiswaResult) (line : Str) : MahasiswaResult :=
  let lower := stringsToLower caseTable line
  if stringsContains lower (lit "nama") ∧ cur.Name = [] then
    { cur with Name := extractValue line }
  else if stringsContains lower (lit "nim") ∧ cur.NIM = [] then
    { cur with NIM := extractValue line }
  else if stringsContains lower (lit "perguruan") ∧ cur.University = [] then
    { cur with University := extractValue line }
  else if stringsContains lower (lit "program") ∧ cur.Program = [] then
    { cur with Program := extractValue line }
  else cur

/-- One iteration of the loop of `extractFromDivResults` on the state
`(results, currentResult)`. -/
def divStep (caseTable : Nat → Nat) (st : List MahasiswaResult × MahasiswaResult)
    (rawLine : Str) : List MahasiswaResult × MahasiswaResult :=
  let line := stringsTrimSpace (cleanHTML rawLine)
  if line = [] then st
  else
    let cur := assignField caseTable st.2 line
    if complete cur then (st.1 ++ [cur], emptyResult) else (st.1, cur)

/-- The function `extractFromDivResults`. -/
def extractFromDivResults (caseTable : Nat → Nat) (html : Str) : List MahasiswaResult :=
  let st := (splitLines html).foldl (divStep caseTable) ([], emptyResult)
  if complete st.2 then st.1 ++ [st.2] else st.1

/-- A Go slice expression `s[lo:]`; `none` is the panic "slice bounds out of
range". -/
def sliceFrom (s : Str) (lo : Nat) : Option Str :=
  if lo ≤ s.length then some (s.drop lo) else none

/-- A Go slice expression `s[lo:hi]`; `none` is the panic "slice bounds out of
range". -/
def sliceRange (s : Str) (lo hi : Nat) : Option Str :=
  if lo ≤ hi ∧ hi ≤ s.length then some ((s.take hi).drop lo) else none

/-- The heading keywords of `extractMahasiswaData`, in the order of the source. -/
def patterns : List Str :=
  [lit ">mahasiswa<", lit "mahasiswa", lit "data mahasiswa", lit "hasil mahasiswa"]

/-- The keyword loop of `extractMahasiswaData`: the index of the first keyword
of the list that occurs in `lower`; `none` is `headingIdx == -1`. -/
def findHeading (lower : Str) : List Str → Option Nat
  | [] => none
  | pattern :: rest =>
    match stringsIndex lower pattern with
    | some idx => some idx
    | none => findHeading lower rest

/-- The function `extractMahasiswaData` with the keyword list as an argument.
`none` is a panic of one of its two slice expressions. -/
def extractMahasiswaDataWith (caseTable : Nat → Nat) (keywords : List Str) (html : Str) :
    Option (List MahasiswaResult) :=
  let lower := stringsToLower caseTable html
  match findHeading lower keywords with
  | none => some []
  | some headingIdx =>
    match sliceFrom html headingIdx with
    | none => none
    | some searchArea =>
      let searchAreaLower := stringsToLower caseTable searchArea
      match stringsIndex searchAreaLower (lit "<table") with
      | none => some (extractFromDivResults caseTable searchArea)
      | some tableStart =>
        match stringsIndex (searchAreaLower.drop tableStart) (lit "</table>") with
        | none => some []
        | some tableEnd =>
          match sliceRange searchArea tableStart (tableStart + tableEnd + 8) with
          | none => none
          | some tableHTML => some (extractFromTable tableHTML)

/-- The function `extractMahasiswaData`. -/
def extractMahasiswaData (caseTable : Nat → Nat) (html : Str) : Option (List MahasiswaResult) :=
  extractMahasiswaDataWith caseTable patterns html

/-! ## Pages, markup and predicates of the statements -/

/-- A page with a well-formed table of one data row and no heading keyword. -/
def pageWithoutHeading : Str :=
  lit "<table><tr><th>Name</th></tr><tr><td>Jane Doe</td><td>12345</td><td>Example University</td></tr></table>"

/-- A page with the heading "Data Mahasiswa" and a table of one header row and
one data row. -/
def pageJaneDoe : Str :=
  lit "<h1>Data Mahasiswa</h1><table><tr><th>Nama</th></tr><tr><td>Jane Doe</td><td>12345</td><td>Example University</td></tr></table>"

/-- Five invalid bytes followed by the heading keyword. -/
def pageInvalidBeforeHeading : Str := [0xFF, 0xFF, 0xFF, 0xFF, 0xFF] ++ lit "mahasiswa"

/-- The heading keyword, one invalid byte and an empty table. -/
def pageInvalidBeforeTable : Str := lit "mahasiswa" ++ [0xFF] ++ lit "<table></table>"

/-- Ten letters U+023A (valid UTF-8, two bytes each) followed by the heading
keyword. -/
def pageLongerLowerCase : Str :=
  [0xC8, 0xBA, 0xC8, 0xBA, 0xC8, 0xBA, 0xC8, 0xBA, 0xC8, 0xBA, 0xC8, 0xBA, 0xC8, 0xBA,
    0xC8, 0xBA, 0xC8, 0xBA, 0xC8, 0xBA] ++ lit "mahasiswa"

/-- A table whose row tags are written in upper case. -/
def tableUpperRows : Str :=
  lit "<table><TR><th>Nama</th></TR><TR><td>Jane Doe</td><td>12345</td><td>Example University</td></TR></table>"

/-- The same table with the row tags in lower case. -/
def tableLowerRows : Str :=
  lit "<table><tr><th>Nama</th></tr><tr><td>Jane Doe</td><td>12345</td><td>Example University</td></tr></table>"

/-- A page with one institution link. -/
def pageWithToken : Str := lit "<a href=\"" ++ (lit "/detail-pt/" ++ (lit "abc123" ++ (lit "==" ++ lit "\">x</a>")))

/-- Some `<` of the text is followed, at any distance, by a `>`: the text has
a match of `<[^>]*>`. -/
def hasTag : Str → Bool
  | [] => false
  | b :: t => (b == 0x3C && t.contains 0x3E) || hasTag t

/-- The six entities that `cleanHTML` decodes. -/
def entities : List Str :=
  [lit "&amp;", lit "&lt;", lit "&gt;", lit "&quot;", lit "&#39;", lit "&nbsp;"]

/-- The six `strings.ReplaceAll` calls of `cleanHTML`, in the order of the
source. -/
def decodeEntities (s : Str) : Str :=
  stringsReplaceAll (stringsReplaceAll (stringsReplaceAll (stringsReplaceAll
    (stringsReplaceAll (stringsReplaceAll s (lit "&amp;") (lit "&")) (lit "&lt;") (lit "<"))
    (lit "&gt;") (lit ">")) (lit "&quot;") (lit "\"")) (lit "&#39;") [0x27])
    (lit "&nbsp;") (lit " ")

/-- No tag (no match of `<[^>]*>`) starts anywhere in `s`. -/
def NoTag (s : Str) : Prop := ∀ pre t, s = pre ++ t → tagMatchLen t = none

/-- No occurrence of `P` in `A ++ F` starts inside `A`. -/
def NoStart (P : Str) : Str → Str → Prop
  | [], _ => True
  | b :: A, F => ¬ P <+: (b :: A) ++ F ∧ NoStart P A F

/-- No match of the anchored matcher `m` in `A ++ F` starts inside `A`. -/
def NoMatch (m : Str → Option (Str × Nat)) : Str → Str → Prop
  | [], _ => True
  | b :: A, F => m ((b :: A) ++ F) = none ∧ NoMatch m A F

/-- A cell of a table markup: a data cell (`td`) or a header cell (`th`), the
attribute text of its opening tag, its content, and the text that follows its
closing tag (white space, for instance). -/
structure Cell where
  header : Bool
  attrs : Str
  content : Str
  after : Str

/-- A row of a table markup: the attribute text of its opening tag, the text
before its first cell, its cells, and the text that follows its closing tag
(white space, `</thead><tbody>`, `</tbody></table>`, for instance). -/
structure Row where
  attrs : Str
  before : Str
  cells : List Cell
  after : Str

/-- The markup of a cell: `<td attrs>content</td>`, or `<th attrs>content</th>`. -/
def renderCell (c : Cell) : Str :=
  (if c.header then lit "<th" else lit "<td")
    ++ (c.attrs ++ (lit ">" ++ (c.content ++ (if c.header then lit "</th>" else lit "</td>"))))

/-- The markup of the cells of a row, each followed by its trailing text. -/
def renderCells : List Cell → Str
  | [] => []
  | c :: cs => renderCell c ++ (c.after ++ renderCells cs)

/-- What stands between the opening and the closing tag of a row. -/
def rowBody (r : Row) : Str := r.before ++ renderCells r.cells

/-- The markup of a row: `<tr attrs>`, the body, `</tr>`. -/
def renderRow (r : Row) : Str :=
  lit "<tr" ++ (r.attrs ++ (lit ">" ++ (rowBody r ++ lit "</tr>")))

/-- The markup of rows, each followed by its trailing text. -/
def renderRows : List Row → Str
  | [] => []
  | r :: rs => renderRow r ++ (r.after ++ renderRows rs)

/-- The markup of a table of one header row followed by data rows: the text
before the first row (`<table>`, `<table class="x"><thead>`, ...), the header
row, the data rows. -/
def renderTable (before : Str) (header : Row) (rows : List Row) : Str :=
  before ++ renderRows (header :: rows)

/-- A cell content contains no row or cell tag. -/
def noRowOrCellTag (c : Str) : Prop :=
  ¬ lit "<tr" <:+: c ∧ ¬ lit "<td" <:+: c ∧ ¬ lit "<th" <:+: c
    ∧ ¬ lit "</tr>" <:+: c ∧ ¬ lit "</td>" <:+: c ∧ ¬ lit "</th>" <:+: c

/-- A cell content contains no closing row or cell tag. -/
def noClosingTag (c : Str) : Prop :=
  ¬ lit "</tr>" <:+: c ∧ ¬ lit "</td>" <:+: c ∧ ¬ lit "</th>" <:+: c

/-- A text between the cells of a row: no `<td`, no `<th` and no `</tr>`. -/
def cellGap (g : Str) : Prop :=
  ¬ lit "<td" <:+: g ∧ ¬ lit "<th" <:+: g ∧ ¬ lit "</tr>" <:+: g

/-- A text between the rows of a table: no `<tr`. -/
def rowGap (g : Str) : Prop := ¬ lit "<tr" <:+: g

/-- A cell as the cell expression reads it: the attribute text has no `>` and
does not end in `</tr`, the content has no closing row or cell tag, and the
text after the cell is a text between cells. -/
def wellFormedCell (c : Cell) : Prop :=
  0x3E ∉ c.attrs ∧ ¬ lit "</tr" <:+ c.attrs ∧ noClosingTag c.content ∧ cellGap c.after

/-- A row as the row expression reads it: the attribute text has no `>`, the
text before the first cell is a text between cells, the cells are well formed,
and the text after the row is a text between rows. -/
def wellFormedRow (r : Row) : Prop :=
  0x3E ∉ r.attrs ∧ cellGap r.before ∧ (∀ c ∈ r.cells, wellFormedCell c) ∧ rowGap r.after

/-- The content of cell `i` of a row (empty when the row has no such cell). -/
def cellContent (r : Row) (i : Nat) : Str := (r.cells.map Cell.content).getD i []

/-- The record the specification assigns to a data row: cell 0 is the name,
cell 1 the identifier, cell 2 the institution, cell 3 the program when the row
has a fourth cell, each cleaned by `cleanHTML`. -/
def recordOf (r : Row) : MahasiswaResult :=
  { Name := cleanHTML (cellContent r 0),
    NIM := cleanHTML (cellContent r 1),
    University := cleanHTML (cellContent r 2),
    Program := if 4 ≤ r.cells.length then cleanHTML (cellContent r 3) else [] }

/-- The header row of the table of the specification's scenario. -/
def plainHeader : Row :=
  { attrs := [], before := [],
    cells := [⟨true, [], lit "Nama", []⟩, ⟨true, [], lit "NIM", []⟩, ⟨true, [], lit "PT", []⟩],
    after := [] }

/-- The data row `["Jane Doe", "12345", "Example University"]`, the last row of
its table. -/
def plainRow : Row :=
  { attrs := [], before := [],
    cells := [⟨false, [], lit "Jane Doe", []⟩, ⟨false, [], lit "12345", []⟩,
      ⟨false, [], lit "Example University", []⟩],
    after := lit "</table>" }

/-- A header row inside `<thead>`, with attributes and white space. -/
def exampleHeader : Row :=
  { attrs := lit " class=\"head\"", before := lit "\n  ",
    cells := [⟨true, lit " scope=\"col\"", lit "Nama", lit "\n  "⟩, ⟨true, [], lit "NIM", lit " "⟩,
      ⟨true, [], lit "Perguruan Tinggi", lit "\n"⟩],
    after := lit "\n</thead>\n<tbody>\n" }

/-- A data row of four cells with attributes, an inline tag and white space. -/
def exampleRow : Row :=
  { attrs := lit " data-id=\"1 < 2\"", before := lit "\n  ",
    cells := [⟨false, lit " class=\"name\"", lit "<b>Jane Doe</b>", lit "\n  "⟩,
      ⟨false, [], lit " 12345 ", []⟩, ⟨false, [], lit "Example University", []⟩,
      ⟨false, [], lit "Informatics", lit "\n"⟩],
    after := lit "\n</tbody></table>" }

/-- The data row `["Jane Doe", "12345", "Example University"]` with the
attribute `title="a>b"` on its first cell. -/
def rowAttributeWithGt : Row :=
  { attrs := [], before := [],
    cells := [⟨false, lit " title=\"a>b\"", lit "Jane Doe", []⟩, ⟨false, [], lit "12345", []⟩,
      ⟨false, [], lit "Example University", []⟩],
    after := lit "</table>" }

/-! ## Lemmas on `strings.Index` -/

theorem stringsIndex_eq_none_iff (s sub : Str) :
    stringsIndex s sub = none ↔ ¬ sub <:+: s := by
  induction s with
  | nil =>
    by_cases h : sub = []
    · simp [stringsIndex, h]
    · simp [stringsIndex, h]
  | cons b t ih =>
    unfold stringsIndex
    by_cases h : sub.isPrefixOf (b :: t) = true
    · have hp : sub <+: b :: t := List.isPrefixOf_iff_prefix.mp h
      simp [h, hp.isInfix]
    · have hp : ¬ sub <+: b :: t := fun hp => h (List.isPrefixOf_iff_prefix.mpr hp)
      simp only [h, Bool.false_eq_true, if_false, Option.map_eq_none', ih]
      rw [List.infix_cons_iff]
      tauto

theorem stringsIndex_isSome_of_sub {s sub : Str} (h : sub <:+: s) :
    (stringsIndex s sub).isSome = true := by
  cases hs : stringsIndex s sub with
  | none => exact absurd h ((stringsIndex_eq_none_iff s sub).mp hs)
  | some i => rfl

/-- What `strings.Index` returns when it finds `sub`: `sub` starts at byte `i`
of `s`, and at no earlier byte. -/
theorem stringsIndex_eq_some {s sub : Str} {i : Nat} (h : stringsIndex s sub = some i) :
    i ≤ s.length ∧ sub <+: s.drop i ∧ ∀ j, j < i → ¬ sub <+: s.drop j := by
  induction s generalizing i with
  | nil =>
    unfold stringsIndex at h
    split at h
    · cases h
      subst_vars
      simp
    · cases h
  | cons b t ih =>
    unfold stringsIndex at h
    split at h
    · rename_i hp
      cases h
      exact ⟨Nat.zero_le _, List.isPrefixOf_iff_prefix.mp hp, fun j hj => absurd hj (Nat.not_lt_zero j)⟩
    · rename_i hp
      rcases Option.map_eq_some'.mp h with ⟨k, hk, rfl⟩
      obtain ⟨h1, h2, h3⟩ := ih hk
      refine ⟨by simpa using h1, by simpa using h2, ?_⟩
      intro j hj
      cases j with
      | zero => simpa using fun hpre => hp (List.isPrefixOf_iff_prefix.mpr hpre)
      | succ j => simpa using h3 j (by omega)

/-- The converse: the first byte at which `sub` starts is what `strings.Index`
returns. -/
theorem stringsIndex_of_first {s sub : Str} {i : Nat}
    (hp : sub <+: s.drop i) (hmin : ∀ j, j < i → ¬ sub <+: s.drop j) :
    stringsIndex s sub = some i := by
  cases hs : stringsIndex s sub with
  | none =>
    exfalso
    apply (stringsIndex_eq_none_iff s sub).mp hs
    exact hp.isInfix.trans (List.drop_suffix i s).isInfix
  | some k =>
    obtain ⟨_, h2, h3⟩ := stringsIndex_eq_some hs
    rcases Nat.lt_trichotomy k i with hlt | heq | hgt
    · exact absurd h2 (hmin k hlt)
    · rw [heq]
    · exact absurd hp (h3 i hgt)

/-! ## The keyword loop and the record invariant -/

theorem stringsIndex_none_of_sub {s p q : Str} (hpq : p <:+: q)
    (h : stringsIndex s p = none) : stringsIndex s q = none := by
  rw [stringsIndex_eq_none_iff] at h ⊢
  exact fun hq => h (hpq.trans hq)

theorem mahasiswa_infix_data : lit "mahasiswa" <:+: lit "data mahasiswa" :=
  ⟨lit "data ", [], by decide⟩

theorem mahasiswa_infix_hasil : lit "mahasiswa" <:+: lit "hasil mahasiswa" :=
  ⟨lit "hasil ", [], by decide⟩

/-- The keyword loop never reaches its third and fourth keyword with a match. -/
theorem findHeading_patterns (lower : Str) :
    findHeading lower patterns
      = (stringsIndex lower (lit ">mahasiswa<")).orElse
          (fun _ => stringsIndex lower (lit "mahasiswa")) := by
  unfold patterns
  simp only [findHeading]
  cases h1 : stringsIndex lower (lit ">mahasiswa<") with
  | some i => rfl
  | none =>
    cases h2 : stringsIndex lower (lit "mahasiswa") with
    | some i => rfl
    | none =>
      simp [stringsIndex_none_of_sub mahasiswa_infix_data h2,
        stringsIndex_none_of_sub mahasiswa_infix_hasil h2]

theorem findHeading_two (lower : Str) :
    findHeading lower [lit ">mahasiswa<", lit "mahasiswa"]
      = (stringsIndex lower (lit ">mahasiswa<")).orElse
          (fun _ => stringsIndex lower (lit "mahasiswa")) := by
  simp only [findHeading]
  cases h1 : stringsIndex lower (lit ">mahasiswa<") with
  | some i => rfl
  | none =>
    cases h2 : stringsIndex lower (lit "mahasiswa") with
    | some i => rfl
    | none => rfl

theorem findHeading_none {lower : Str} {keywords : List Str}
    (h : ∀ p ∈ keywords, stringsContains lower p = false) :
    findHeading lower keywords = none := by
  induction keywords with
  | nil => rfl
  | cons p ps ih =>
    have hp : stringsIndex lower p = none := by
      have := h p (List.mem_cons_self p ps)
      simpa [stringsContains] using this
    simp only [findHeading, hp]
    exact ih (fun q hq => h q (List.mem_cons_of_mem p hq))

/-- Every record of `extractFromTable` passed the test of its loop body. -/
theorem extractFromTable_named (tableHTML : Str) (r : MahasiswaResult)
    (hr : r ∈ extractFromTable tableHTML) : r.Name ≠ [] ∨ r.NIM ≠ [] := by
  unfold extractFromTable at hr
  rcases List.mem_filterMap.mp hr with ⟨row, _, hrow⟩
  unfold rowRecord at hrow
  split at hrow
  · simp only at hrow
    split at hrow
    · rename_i hcond
      cases hrow
      exact hcond
    · cases hrow
  · cases hrow

theorem complete_name {r : MahasiswaResult} (h : complete r = true) : r.Name ≠ [] := by
  unfold complete at h
  exact (of_decide_eq_true h).1

theorem divStep_named (caseTable : Nat → Nat) (st : List MahasiswaResult × MahasiswaResult)
    (rawLine : Str) (h : ∀ r ∈ st.1, r.Name ≠ []) :
    ∀ r ∈ (divStep caseTable st rawLine).1, r.Name ≠ [] := by
  unfold divStep
  simp only
  split
  · exact h
  · split
    · rename_i hc
      intro r hr
      rcases List.mem_append.mp hr with hr | hr
      · exact h r hr
      · rw [List.mem_singleton.mp hr]
        exact complete_name hc
    · exact h

theorem foldl_divStep_named (caseTable : Nat → Nat) (lines : List Str)
    (st : List MahasiswaResult × MahasiswaResult) (h : ∀ r ∈ st.1, r.Name ≠ []) :
    ∀ r ∈ (lines.foldl (divStep caseTable) st).1, r.Name ≠ [] := by
  induction lines generalizing st with
  | nil => exact h
  | cons l ls ih =>
    rw [List.foldl_cons]
    exact ih (divStep caseTable st l) (divStep_named caseTable st l h)

/-- Every record of `extractFromDivResults` has a name. -/
theorem extractFromDivResults_named (caseTable : Nat → Nat) (html : Str) (r : MahasiswaResult)
    (hr : r ∈ extractFromDivResults caseTable html) : r.Name ≠ [] := by
  unfold extractFromDivResults at hr
  simp only at hr
  have hinv := foldl_divStep_named caseTable (splitLines html) ([], emptyResult)
    (fun r hr => absurd hr (List.not_mem_nil r))
  split at hr
  · rename_i hc
    rcases List.mem_append.mp hr with hr | hr
    · exact hinv r hr
    · rw [List.mem_singleton.mp hr]
      exact complete_name hc
  · exact hinv r hr

/-! ## Claims on `extractMahasiswaData` -/

/-- C3: every record that `extractMahasiswaData` returns, on every page and
from whichever of the two extractors, has a non-empty Name or a non-empty NIM. -/
theorem extractMahasiswaData_record_named (caseTable : Nat → Nat) (html : Str)
    (rs : List MahasiswaResult) (h : extractMahasiswaData caseTable html = some rs)
    (r : MahasiswaResult) (hr : r ∈ rs) : r.Name ≠ [] ∨ r.NIM ≠ [] := by
  unfold extractMahasiswaData extractMahasiswaDataWith at h
  simp only at h
  split at h
  · cases h
    exact absurd hr (List.not_mem_nil r)
  · split at h
    · cases h
    · split at h
      · cases h
        exact Or.inl (extractFromDivResults_named caseTable _ r hr)
      · split at h
        · cases h
          exact absurd hr (List.not_mem_nil r)
        · split at h
          · cases h
          · cases h
            exact extractFromTable_named _ r hr

set_option maxRecDepth 100000 in
theorem extractMahasiswaData_record_named_witness :
    extractMahasiswaData id pageJaneDoe
        = some [⟨lit "Jane Doe", lit "12345", lit "Example University", []⟩]
      ∧ (lit "Jane Doe" ≠ [] ∨ lit "12345" ≠ []) :=
  ⟨by decide, extractMahasiswaData_record_named id pageJaneDoe
    [⟨lit "Jane Doe", lit "12345", lit "Example University", []⟩] (by decide)
    ⟨lit "Jane Doe", lit "12345", lit "Example University", []⟩ (List.mem_singleton.mpr rfl)⟩

/-- C4: when the lower-cased page contains none of the four heading keywords,
`extractMahasiswaData` returns the empty sequence, whatever else the page
contains. -/
theorem extractMahasiswaData_no_heading (caseTable : Nat → Nat) (html : Str)
    (h : ∀ p ∈ patterns, stringsContains (stringsToLower caseTable html) p = false) :
    extractMahasiswaData caseTable html = some [] := by
  unfold extractMahasiswaData extractMahasiswaDataWith
  simp only [findHeading_none h]

set_option maxRecDepth 100000 in
theorem extractMahasiswaData_no_heading_witness :
    extractFromTable pageWithoutHeading
        = [⟨lit "Jane Doe", lit "12345", lit "Example University", []⟩]
      ∧ extractMahasiswaData id pageWithoutHeading = some [] :=
  ⟨by decide, extractMahasiswaData_no_heading id pageWithoutHeading (by decide)⟩

/-- C10: the heading position is the first ">mahasiswa<" of the lower-cased
page when there is one and the first "mahasiswa" otherwise; the keywords
"data mahasiswa" and "hasil mahasiswa" are never the ones selected, and
`extractMahasiswaData` with the keyword list cut to the first two keywords
returns the same result on every page. -/
theorem extractMahasiswaData_two_keywords (caseTable : Nat → Nat) (html : Str) :
    findHeading (stringsToLower caseTable html) patterns
        = (stringsIndex (stringsToLower caseTable html) (lit ">mahasiswa<")).orElse
            (fun _ => stringsIndex (stringsToLower caseTable html) (lit "mahasiswa"))
      ∧ extractMahasiswaDataWith caseTable [lit ">mahasiswa<", lit "mahasiswa"] html
        = extractMahasiswaData caseTable html := by
  refine ⟨findHeading_patterns _, ?_⟩
  unfold extractMahasiswaData extractMahasiswaDataWith
  simp only [findHeading_patterns, findHeading_two]

/-! ## The slice bounds of `extractMahasiswaData` -/

/-- When the heading index found in the lower-cased page is beyond the end of
the page, the slice `html[headingIdx:]` panics. -/
theorem extractMahasiswaDataWith_heading_out_of_range (caseTable : Nat → Nat)
    (keywords : List Str) (html : Str) (headingIdx : Nat)
    (hidx : findHeading (stringsToLower caseTable html) keywords = some headingIdx)
    (hlen : html.length < headingIdx) :
    extractMahasiswaDataWith caseTable keywords html = none := by
  unfold extractMahasiswaDataWith
  simp only [hidx, sliceFrom, Nat.not_le.mpr hlen, if_false]

/-- When the table bounds found in the lower-cased search area are beyond the
end of the search area, the slice `searchArea[tableStart : tableStart+tableEnd+8]`
panics. -/
theorem extractMahasiswaDataWith_table_out_of_range (caseTable : Nat → Nat)
    (keywords : List Str) (html : Str) (headingIdx tableStart tableEnd : Nat)
    (hidx : findHeading (stringsToLower caseTable html) keywords = some headingIdx)
    (hlen : headingIdx ≤ html.length)
    (hstart : stringsIndex (stringsToLower caseTable (html.drop headingIdx)) (lit "<table")
      = some tableStart)
    (hend : stringsIndex ((stringsToLower caseTable (html.drop headingIdx)).drop tableStart)
      (lit "</table>") = some tableEnd)
    (hout : (html.drop headingIdx).length < tableStart + tableEnd + 8) :
    extractMahasiswaDataWith caseTable keywords html = none := by
  unfold extractMahasiswaDataWith
  simp only [hidx, sliceFrom, hlen, if_true, hstart, hend, sliceRange]
  rw [if_neg]
  intro h
  exact absurd h.2 (Nat.not_le.mpr hout)

/-- On ASCII text `strings.ToLower` maps byte by byte. -/
theorem stringsToLower_ascii (caseTable : Nat → Nat) (s : Str) (h : ∀ b ∈ s, b < 0x80) :
    stringsToLower caseTable s
      = s.map (fun b => if 0x41 ≤ b ∧ b ≤ 0x5A then b + 0x20 else b) := by
  unfold stringsToLower
  induction s with
  | nil => rfl
  | cons b t ih =>
    have hb : b < 0x80 := h b (List.mem_cons_self b t)
    have hdec : decodeRune (b :: t) = (b, 1) := by simp [decodeRune, hb]
    have hlow : unicodeToLower caseTable b = if 0x41 ≤ b ∧ b ≤ 0x5A then b + 0x20 else b := by
      unfold unicodeToLower
      rw [if_pos (by omega)]
    have henc : encodeRune (if 0x41 ≤ b ∧ b ≤ 0x5A then b + 0x20 else b)
        = [if 0x41 ≤ b ∧ b ≤ 0x5A then b + 0x20 else b] := by
      unfold encodeRune
      rw [if_pos (by split <;> omega)]
    rw [mapRunes, hdec]
    simp only [hlow, henc, Nat.sub_self, List.map_cons, List.cons_append, List.nil_append]
    rw [ih (fun c hc => h c (List.mem_cons_of_mem b hc))]

theorem stringsToLower_ascii_length (caseTable : Nat → Nat) (s : Str)
    (h : ∀ b ∈ s, b < 0x80) : (stringsToLower caseTable s).length = s.length := by
  rw [stringsToLower_ascii caseTable s h, List.length_map]

theorem findHeading_le {lower : Str} {keywords : List Str} {idx : Nat}
    (h : findHeading lower keywords = some idx) : idx ≤ lower.length := by
  induction keywords with
  | nil => cases h
  | cons p ps ih =>
    unfold findHeading at h
    cases hp : stringsIndex lower p with
    | some i =>
      rw [hp] at h
      cases h
      exact (stringsIndex_eq_some hp).1
    | none =>
      rw [hp] at h
      exact ih h

/-- Where C2 does hold: on a page of ASCII bytes lower-casing keeps every byte
position, both slice bounds are valid, and `extractMahasiswaData` returns a
list. -/
theorem extractMahasiswaData_ascii (caseTable : Nat → Nat) (html : Str)
    (h : ∀ b ∈ html, b < 0x80) : ∃ rs, extractMahasiswaData caseTable html = some rs := by
  unfold extractMahasiswaData extractMahasiswaDataWith
  simp only
  cases hh : findHeading (stringsToLower caseTable html) patterns with
  | none => exact ⟨[], rfl⟩
  | some idx =>
    have hidx : idx ≤ html.length := by
      have := findHeading_le hh
      rwa [stringsToLower_ascii_length caseTable html h] at this
    have hsa : ∀ b ∈ html.drop idx, b < 0x80 := fun b hb => h b (List.mem_of_mem_drop hb)
    simp only [sliceFrom, hidx, if_true]
    cases hs : stringsIndex (stringsToLower caseTable (html.drop idx)) (lit "<table") with
    | none => exact ⟨_, rfl⟩
    | some tableStart =>
      simp only
      cases he : stringsIndex ((stringsToLower caseTable (html.drop idx)).drop tableStart)
          (lit "</table>") with
      | none => exact ⟨[], rfl⟩
      | some tableEnd =>
        simp only
        have h1 := (stringsIndex_eq_some hs).1
        obtain ⟨h2, h3, _⟩ := stringsIndex_eq_some he
        have h4 := h3.length_le
        have h5 : (lit "</table>").length = 8 := rfl
        rw [h5, List.length_drop] at h4
        rw [List.length_drop] at h2
        rw [List.length_drop, stringsToLower_ascii_length caseTable _ hsa] at h4
        rw [stringsToLower_ascii_length caseTable _ hsa] at h1 h2
        have hb : tableStart ≤ tableStart + tableEnd + 8
            ∧ tableStart + tableEnd + 8 ≤ (html.drop idx).length := by
          constructor <;> omega
        simp only [sliceRange, hb, and_self, if_true]
        exact ⟨_, rfl⟩

theorem stringsToLower_pageInvalidBeforeHeading (caseTable : Nat → Nat) :
    stringsToLower caseTable pageInvalidBeforeHeading
      = [0xEF, 0xBF, 0xBD, 0xEF, 0xBF, 0xBD, 0xEF, 0xBF, 0xBD, 0xEF, 0xBF, 0xBD,
          0xEF, 0xBF, 0xBD] ++ lit "mahasiswa" := by
  simp [stringsToLower, mapRunes, decodeRune, unicodeToLower, encodeRune, RuneError, lit,
    pageInvalidBeforeHeading]

theorem stringsToLower_pageInvalidBeforeTable (caseTable : Nat → Nat) :
    stringsToLower caseTable pageInvalidBeforeTable
      = lit "mahasiswa" ++ [0xEF, 0xBF, 0xBD] ++ lit "<table></table>" := by
  simp [stringsToLower, mapRunes, decodeRune, unicodeToLower, encodeRune, RuneError, lit,
    pageInvalidBeforeTable]

theorem stringsToLower_pageLongerLowerCase (caseTable : Nat → Nat)
    (h : caseTable 0x23A = 0x2C65) :
    stringsToLower caseTable pageLongerLowerCase
      = [0xE2, 0xB1, 0xA5, 0xE2, 0xB1, 0xA5, 0xE2, 0xB1, 0xA5, 0xE2, 0xB1, 0xA5, 0xE2, 0xB1, 0xA5,
          0xE2, 0xB1, 0xA5, 0xE2, 0xB1, 0xA5, 0xE2, 0xB1, 0xA5, 0xE2, 0xB1, 0xA5, 0xE2, 0xB1, 0xA5]
        ++ lit "mahasiswa" := by
  simp [stringsToLower, mapRunes, decodeRune, unicodeToLower, encodeRune, RuneError, lit,
    pageLongerLowerCase, h]

/-- The same panic on valid UTF-8: the lower case of U+023A (two bytes) is
U+2C65 (three bytes), so after ten such letters the heading index is 30 on a
page of 29 bytes. -/
theorem extractMahasiswaData_panics_valid_utf8 (caseTable : Nat → Nat)
    (h : caseTable 0x23A = 0x2C65) :
    pageLongerLowerCase.length = 29
      ∧ findHeading (stringsToLower caseTable pageLongerLowerCase) patterns = some 30
      ∧ extractMahasiswaData caseTable pageLongerLowerCase = none := by
  have h1 : findHeading (stringsToLower caseTable pageLongerLowerCase) patterns = some 30 := by
    rw [stringsToLower_pageLongerLowerCase caseTable h]
    decide
  exact ⟨by decide, h1,
    extractMahasiswaDataWith_heading_out_of_range caseTable patterns _ 30 h1 (by decide)⟩

/-- C2 (fails on the code): on a page of five invalid bytes followed by
"mahasiswa" the heading index is 15 although the page has 14 bytes, and on
"mahasiswa", one invalid byte and "<table></table>" the table bound is 27
although the search area has 25 bytes; on both pages `extractMahasiswaData`
panics instead of returning a list. -/
theorem extractMahasiswaData_panics (caseTable : Nat → Nat) :
    findHeading (stringsToLower caseTable pageInvalidBeforeHeading) patterns = some 15
      ∧ pageInvalidBeforeHeading.length = 14
      ∧ extractMahasiswaData caseTable pageInvalidBeforeHeading = none
      ∧ pageInvalidBeforeTable.length = 25
      ∧ extractMahasiswaData caseTable pageInvalidBeforeTable = none := by
  have h1 : findHeading (stringsToLower caseTable pageInvalidBeforeHeading) patterns
      = some 15 := by
    rw [stringsToLower_pageInvalidBeforeHeading]
    decide
  have h2 : findHeading (stringsToLower caseTable pageInvalidBeforeTable) patterns
      = some 0 := by
    rw [stringsToLower_pageInvalidBeforeTable]
    decide
  have h3 : pageInvalidBeforeTable.drop 0 = pageInvalidBeforeTable := rfl
  refine ⟨h1, by decide, ?_, by decide, ?_⟩
  · exact extractMahasiswaDataWith_heading_out_of_range caseTable patterns _ 15 h1 (by decide)
  · refine extractMahasiswaDataWith_table_out_of_range caseTable patterns _ 0 12 7 h2
      (Nat.zero_le _) ?_ ?_ (by decide)
    · rw [h3, stringsToLower_pageInvalidBeforeTable]
      decide
    · rw [h3, stringsToLower_pageInvalidBeforeTable]
      decide

/-! ## Claims on `extractFromDivResults` and `extractValue` -/

theorem divStep_not_complete (caseTable : Nat → Nat)
    (st : List MahasiswaResult × MahasiswaResult) (rawLine : Str)
    (h : complete st.2 = false) : complete (divStep caseTable st rawLine).2 = false := by
  unfold divStep
  simp only
  split
  · exact h
  · split
    · rfl
    · rename_i hc
      simpa using hc

theorem foldl_divStep_not_complete (caseTable : Nat → Nat) (lines : List Str)
    (st : List MahasiswaResult × MahasiswaResult) (h : complete st.2 = false) :
    complete (lines.foldl (divStep caseTable) st).2 = false := by
  induction lines generalizing st with
  | nil => exact h
  | cons l ls ih =>
    rw [List.foldl_cons]
    exact ih (divStep caseTable st l) (divStep_not_complete caseTable st l h)

/-- The test after the loop of `extractFromDivResults` repeats the test at the
end of the loop body, after which the record in progress is reset: it never
holds, and the function returns what the loop collected. -/
theorem extractFromDivResults_eq_loop (caseTable : Nat → Nat) (html : Str) :
    extractFromDivResults caseTable html
      = ((splitLines html).foldl (divStep caseTable) ([], emptyResult)).1 := by
  unfold extractFromDivResults
  simp only [foldl_divStep_not_complete caseTable (splitLines html) ([], emptyResult) rfl,
    Bool.false_eq_true, if_false]

/-- C7 (fails on the code): on the input "Nama: Jane Doe" the record in
progress at the end of the input has the Name "Jane Doe", and
`extractFromDivResults` returns no record. -/
theorem extractFromDivResults_name_only (caseTable : Nat → Nat) :
    ((splitLines (lit "Nama: Jane Doe")).foldl (divStep caseTable) ([], emptyResult)).2.Name
        = lit "Jane Doe"
      ∧ extractFromDivResults caseTable (lit "Nama: Jane Doe") = [] :=
  ⟨rfl, rfl⟩

set_option maxRecDepth 100000 in
/-- C8 (fails on the code): a header row and one valid data row give one
record when the row tags are written `<tr>` and none when they are written
`<TR>`, also through `extractMahasiswaData`, which finds the table tags in
either case. -/
theorem extractFromTable_upper_case_rows :
    extractFromTable tableLowerRows
        = [⟨lit "Jane Doe", lit "12345", lit "Example University", []⟩]
      ∧ extractFromTable tableUpperRows = []
      ∧ extractMahasiswaData id (lit "Mahasiswa" ++ tableUpperRows) = some [] := by
  decide

theorem lit_colon : lit ":" = [0x3A] := rfl

theorem stringsIndex_colon (pre post : Str) (hpre : 0x3A ∉ pre) :
    stringsIndex (pre ++ 0x3A :: post) (lit ":") = some pre.length := by
  apply stringsIndex_of_first
  · simp [lit_colon]
  · intro j hj hp
    rw [lit_colon, List.drop_append_of_le_length (Nat.le_of_lt hj)] at hp
    obtain ⟨t, ht⟩ := hp
    have hne : pre.drop j ≠ [] := by
      intro h
      have := congrArg List.length h
      simp at this
      omega
    obtain ⟨c, cs, hcs⟩ := List.exists_cons_of_ne_nil hne
    rw [hcs] at ht
    simp only [List.cons_append, List.nil_append, List.cons.injEq] at ht
    apply hpre
    have hmem : c ∈ pre.drop j := by rw [hcs]; exact List.mem_cons_self c cs
    rw [ht.1]
    exact List.mem_of_mem_drop hmem

theorem stringsIndex_colon_none (line : Str) (h : 0x3A ∉ line) :
    stringsIndex line (lit ":") = none := by
  rw [stringsIndex_eq_none_iff, lit_colon]
  rintro ⟨a, b, hab⟩
  apply h
  rw [← hab]
  simp

/-- C9 as stated fails: the line "Nama:" contains a colon and `extractValue`
returns the whole line, not the (empty) trimmed text after the colon; the
label/value extractor stores "Nama:" as the name. -/
theorem extractValue_colon_last :
    stringsContains (lit "Nama:") (lit ":") = true
      ∧ stringsIndex (lit "Nama:") (lit ":") = some 4
      ∧ extractValue (lit "Nama:") = lit "Nama:"
      ∧ extractValue (lit "Nama:") ≠ stringsTrimSpace ((lit "Nama:").drop (4 + 1))
      ∧ extractFromDivResults id (lit "Nama:\nNIM: 123")
          = [⟨lit "Nama:", lit "123", [], []⟩] := by
  decide

/-- C9 as amended: on a line whose first colon is followed by at least one
more byte, `extractValue` is the white-space-trimmed text after that colon; on
a line whose first colon is its last byte, and on a line without a colon, it is
the whole line. -/
theorem extractValue_spec (pre post : Str) (hpre : 0x3A ∉ pre) :
    extractValue (pre ++ 0x3A :: post)
        = (if post = [] then pre ++ [0x3A] else stringsTrimSpace post)
      ∧ extractValue pre = pre := by
  constructor
  · unfold extractValue
    rw [stringsIndex_colon pre post hpre]
    simp only [List.length_append, List.length_cons]
    by_cases hp : post = []
    · subst hp
      simp
    · have hpos : 0 < post.length := List.length_pos.mpr hp
      have hlt : pre.length + 1 < pre.length + (post.length + 1) := by omega
      simp only [hlt, if_true, hp, if_false]
      congr 1
      rw [List.drop_append_eq_append_drop]
      simp
  · unfold extractValue
    rw [stringsIndex_colon_none pre hpre]

theorem extractValue_spec_witness :
    0x3A ∉ lit "Nama"
      ∧ extractValue (lit "Nama" ++ 0x3A :: lit " Jane Doe") = lit "Jane Doe"
      ∧ extractValue (lit "Nama") = lit "Nama" :=
  ⟨by decide,
    (extractValue_spec (lit "Nama") (lit " Jane Doe") (by decide)).1.trans (by decide),
    (extractValue_spec (lit "Nama") (lit " Jane Doe") (by decide)).2⟩

/-! ## Claims on `extractUniversityToken` -/

theorem findFirst_eq_none_iff (matchAt : Str → Option (Str × Nat)) (s : Str) :
    findFirst matchAt s = none ↔ ∀ pre t, s = pre ++ t → t ≠ [] → matchAt t = none := by
  induction s with
  | nil =>
    simp only [findFirst, true_iff]
    intro pre t h ht
    have := List.append_eq_nil.mp h.symm
    exact absurd this.2 ht
  | cons b u ih =>
    unfold findFirst
    constructor
    · intro h pre t hs ht
      cases hm : matchAt (b :: u) with
      | some v => rw [hm] at h; cases h
      | none =>
        rw [hm] at h
        simp only at h
        cases pre with
        | nil =>
          simp only [List.nil_append] at hs
          rw [← hs]; exact hm
        | cons c pre2 =>
          simp only [List.cons_append, List.cons.injEq] at hs
          exact (ih.mp h) pre2 t hs.2 ht
    · intro h
      have hm : matchAt (b :: u) = none := h [] (b :: u) rfl (List.cons_ne_nil b u)
      rw [hm]
      simp only
      apply ih.mpr
      intro pre t hs ht
      exact h (b :: pre) t (by rw [hs]; rfl) ht

theorem findFirst_eq_some_of_first (matchAt : Str → Option (Str × Nat)) (pre t cap : Str)
    (n : Nat) (ht : t ≠ []) (hm : matchAt t = some (cap, n))
    (hmin : ∀ pre2 t2, pre ++ t = pre2 ++ t2 → pre2.length < pre.length → matchAt t2 = none) :
    findFirst matchAt (pre ++ t) = some cap := by
  induction pre with
  | nil =>
    obtain ⟨b, u, rfl⟩ := List.exists_cons_of_ne_nil ht
    simp only [List.nil_append, findFirst, hm]
  | cons c pre2 ih =>
    have h0 : matchAt (c :: (pre2 ++ t)) = none :=
      hmin [] (c :: (pre2 ++ t)) rfl (by simp)
    rw [List.cons_append, findFirst, h0]
    apply ih
    intro pre3 t3 hs hl
    exact hmin (c :: pre3) t3 (by simp [hs]) (by simpa using hl)

theorem detail_isPrefixOf (r : Str) : (lit "/detail-pt/").isPrefixOf (lit "/detail-pt/" ++ r) = true :=
  List.isPrefixOf_iff_prefix.mpr (List.prefix_append _ _)

theorem detail_drop (r : Str) : (lit "/detail-pt/" ++ r).drop 11 = r :=
  List.drop_left' rfl

/-- The anchored matcher matches exactly the texts that start with the literal
followed by a class byte. -/
theorem tokenMatchAt_eq_none_iff (s : Str) :
    tokenMatchAt s = none
      ↔ ¬ ∃ c rest, isTokenByte c = true ∧ s = lit "/detail-pt/" ++ c :: rest := by
  unfold tokenMatchAt
  by_cases hp : (lit "/detail-pt/").isPrefixOf s = true
  · obtain ⟨r, rfl⟩ := List.isPrefixOf_iff_prefix.mp hp
    simp only [hp, if_true, detail_drop]
    cases r with
    | nil => simp
    | cons c rest =>
      by_cases hc : isTokenByte c = true
      · simp only [List.takeWhile_cons, hc, if_true]
        simp only [List.cons_ne_nil, if_false]
        constructor
        · intro h; cases h
        · intro h; exact absurd ⟨c, rest, hc, rfl⟩ h
      · simp only [List.takeWhile_cons, hc, if_true, Bool.false_eq_true, if_false, true_iff]
        rintro ⟨c2, rest2, hc2, heq⟩
        have := List.append_cancel_left heq
        simp only [List.cons.injEq] at this
        rw [this.1] at hc
        exact hc hc2
  · simp only [hp, Bool.false_eq_true, if_false, true_iff]
    rintro ⟨c, rest, _, rfl⟩
    exact hp (detail_isPrefixOf _)

theorem tokenMatchAt_capture_ne_nil {s cap : Str} {n : Nat}
    (h : tokenMatchAt s = some (cap, n)) : cap ≠ [] := by
  unfold tokenMatchAt at h
  split at h
  · simp only at h
    split at h
    · cases h
    · rename_i hrun
      simp only [Option.some.injEq, Prod.mk.injEq] at h
      rw [← h.1]
      simp [hrun]
  · cases h

theorem takeWhile_run (run tail : Str) (p : Nat → Bool) (hrun : ∀ b ∈ run, p b = true)
    (htail : ∀ b, tail.head? = some b → p b = false) :
    (run ++ tail).takeWhile p = run ∧ (run ++ tail).dropWhile p = tail := by
  induction run with
  | nil =>
    cases tail with
    | nil => simp
    | cons b t =>
      have := htail b rfl
      simp [List.takeWhile_cons, List.dropWhile_cons, this]
  | cons c cs ih =>
    have hc := hrun c (List.mem_cons_self c cs)
    have := ih (fun b hb => hrun b (List.mem_cons_of_mem c hb))
    simp [List.takeWhile_cons, List.dropWhile_cons, hc, this.1, this.2]

/-- The match at a token: the run of class bytes and the padding. -/
theorem tokenMatchAt_token (run pad rest : Str) (hne : run ≠ [])
    (hrun : ∀ b ∈ run, isTokenByte b = true)
    (hpad : ∀ b ∈ pad, b = 0x3D) (hlen : pad.length ≤ 2)
    (hmax : pad = [] → ∀ b, rest.head? = some b → isTokenByte b = false)
    (hgreedy : pad.length < 2 → rest.head? ≠ some 0x3D) :
    tokenMatchAt (lit "/detail-pt/" ++ (run ++ (pad ++ rest)))
      = some (run ++ pad, 11 + run.length + pad.length) := by
  have h1 := takeWhile_run run (pad ++ rest) isTokenByte hrun (by
    intro b hb
    cases pad with
    | nil => exact hmax rfl b (by simpa using hb)
    | cons c cs =>
      simp only [List.cons_append, List.head?_cons, Option.some.injEq] at hb
      rw [← hb, hpad c (List.mem_cons_self c cs)]
      decide)
  have h2 : ((pad ++ rest).takeWhile (· == 0x3D)).take 2 = pad := by
    by_cases hl : pad.length < 2
    · have h3 := takeWhile_run pad rest (· == 0x3D) (by
        intro b hb
        simp [hpad b hb]) (by
        intro b hb
        have := hgreedy hl
        rw [hb] at this
        simpa using this)
      rw [h3.1]
      exact List.take_of_length_le hlen
    · have hl2 : pad.length = 2 := by omega
      have h3 : ∃ t, (pad ++ rest).takeWhile (· == 0x3D) = pad ++ t := by
        clear hmax hgreedy h1 hl hl2 hlen
        induction pad with
        | nil => exact ⟨_, rfl⟩
        | cons c cs ih =>
          obtain ⟨t, ht⟩ := ih (fun b hb => hpad b (List.mem_cons_of_mem c hb))
          refine ⟨t, ?_⟩
          simp [List.takeWhile_cons, hpad c (List.mem_cons_self c cs), ht]
      obtain ⟨t, ht⟩ := h3
      rw [ht, List.take_append_of_le_length (by omega)]
      exact List.take_of_length_le (by omega)
  unfold tokenMatchAt
  simp only [detail_isPrefixOf, if_true, detail_drop, h1.1, h1.2, h2, hne, if_false]

/-- C5: `extractUniversityToken` returns the empty string exactly when the text
has no "/detail-pt/" immediately followed by a byte of [A-Za-z0-9_-]; and when
the text has exactly one such occurrence it returns the token: the maximal run
of class bytes after "/detail-pt/" followed by the `=` bytes that come right
after it, at most two. -/
theorem extractUniversityToken_spec :
    (∀ html : Str, extractUniversityToken html = []
      ↔ ¬ ∃ pre c rest, isTokenByte c = true ∧ html = pre ++ (lit "/detail-pt/" ++ c :: rest))
    ∧ (∀ pre run pad rest : Str, run ≠ [] → (∀ b ∈ run, isTokenByte b = true)
        → (∀ b ∈ pad, b = 0x3D) → pad.length ≤ 2
        → (pad = [] → ∀ b, rest.head? = some b → isTokenByte b = false)
        → (pad.length < 2 → rest.head? ≠ some 0x3D)
        → (∀ pre2 c rest2, isTokenByte c = true
            → pre ++ (lit "/detail-pt/" ++ (run ++ (pad ++ rest)))
                = pre2 ++ (lit "/detail-pt/" ++ c :: rest2)
            → pre2.length = pre.length)
        → extractUniversityToken (pre ++ (lit "/detail-pt/" ++ (run ++ (pad ++ rest))))
            = run ++ pad) := by
  constructor
  · intro html
    unfold extractUniversityToken
    cases hf : findFirst tokenMatchAt html with
    | none =>
      simp only [true_iff]
      rintro ⟨pre, c, rest, hc, rfl⟩
      have := (findFirst_eq_none_iff tokenMatchAt _).mp hf pre _ rfl (by simp [lit])
      exact (tokenMatchAt_eq_none_iff _).mp this ⟨c, rest, hc, rfl⟩
    | some cap =>
      simp only
      have hex : ∃ pre t, html = pre ++ t ∧ t ≠ [] ∧ ∃ n, tokenMatchAt t = some (cap, n) := by
        clear * - hf
        induction html with
        | nil => simp [findFirst] at hf
        | cons b u ih =>
          unfold findFirst at hf
          cases hm : tokenMatchAt (b :: u) with
          | some v =>
            rw [hm] at hf
            simp only [Option.some.injEq] at hf
            exact ⟨[], b :: u, rfl, List.cons_ne_nil b u, v.2, by rw [hm, ← hf]⟩
          | none =>
            rw [hm] at hf
            obtain ⟨pre, t, h1, h2, h3⟩ := ih hf
            exact ⟨b :: pre, t, by rw [h1]; rfl, h2, h3⟩
      obtain ⟨pre, t, rfl, _, n, hm⟩ := hex
      constructor
      · intro h
        exact absurd h (tokenMatchAt_capture_ne_nil hm)
      · intro h
        exfalso
        apply h
        have hsome : tokenMatchAt t ≠ none := by rw [hm]; simp
        have := not_not.mp (fun hn => hsome ((tokenMatchAt_eq_none_iff t).mpr hn))
        obtain ⟨c, rest, hc, rfl⟩ := this
        exact ⟨pre, c, rest, hc, rfl⟩
  · intro pre run pad rest hne hrun hpad hlen hmax hgreedy huniq
    unfold extractUniversityToken
    rw [findFirst_eq_some_of_first tokenMatchAt pre _ (run ++ pad) (11 + run.length + pad.length)
      (by simp [lit]) (tokenMatchAt_token run pad rest hne hrun hpad hlen hmax hgreedy)]
    intro pre2 t2 hs hl
    by_contra hm
    have := not_not.mp (fun hn => hm ((tokenMatchAt_eq_none_iff t2).mpr hn))
    obtain ⟨c, rest2, hc, rfl⟩ := this
    have := huniq pre2 c rest2 hc hs
    omega

theorem path_position {s pre2 rest : Str} (h : s = pre2 ++ (lit "/detail-pt/" ++ rest)) :
    pre2.length < s.length ∧ (lit "/detail-pt/").isPrefixOf (s.drop pre2.length) = true := by
  subst h
  refine ⟨?_, ?_⟩
  · simp [lit]
  · rw [List.drop_left]
    exact detail_isPrefixOf rest

set_option maxRecDepth 100000 in
theorem extractUniversityToken_spec_witness :
    pageWithToken = lit "<a href=\"/detail-pt/abc123==\">x</a>"
      ∧ extractUniversityToken pageWithToken = lit "abc123==" :=
  ⟨by decide,
    extractUniversityToken_spec.2 (lit "<a href=\"") (lit "abc123") (lit "==") (lit "\">x</a>")
      (by decide) (by decide) (by decide) (by decide) (by decide) (by decide)
      (by
        intro pre2 c rest2 _ hs
        have hpos := path_position hs
        have key : ∀ k, k < pageWithToken.length →
            (lit "/detail-pt/").isPrefixOf (pageWithToken.drop k) = true → k = 9 := by decide
        exact key _ hpos.1 hpos.2)⟩

/-! ## Claims on `cleanHTML` -/

/-- C6 as stated fails: `cleanHTML` decodes "&lt;b&gt;" to "<b>", which a
second pass deletes as a tag; and it decodes "&amp;amp;" to "&amp;", which a
second pass decodes to "&". -/
theorem cleanHTML_not_idempotent :
    cleanHTML (lit "&lt;b&gt;") = lit "<b>"
      ∧ cleanHTML (cleanHTML (lit "&lt;b&gt;")) = []
      ∧ cleanHTML (cleanHTML (lit "&lt;b&gt;")) ≠ cleanHTML (lit "&lt;b&gt;")
      ∧ cleanHTML (cleanHTML (lit "&amp;amp;")) ≠ cleanHTML (lit "&amp;amp;") := by
  decide

theorem replaceAllFrom_of_not_mem (c : Nat) (old new s : Str) (hc : c ∉ s) :
    replaceAllFrom (c :: old) new 0 s = s := by
  induction s with
  | nil => rfl
  | cons b t ih =>
    have hb : c ≠ b := fun h => hc (by rw [h]; exact List.mem_cons_self b t)
    have ht : c ∉ t := fun h => hc (List.mem_cons_of_mem b h)
    have hbeq : (c == b) = false := by simpa using hb
    simp only [replaceAllFrom, List.isPrefixOf, hbeq, Bool.false_and,
      Bool.false_eq_true, if_false, ih ht]

theorem removeAllFrom_subset (matchLen : Str → Option Nat) (k : Nat) (s : Str) :
    ∀ b ∈ removeAllFrom matchLen k s, b ∈ s := by
  induction s generalizing k with
  | nil => intro b hb; simp [removeAllFrom] at hb
  | cons c t ih =>
    intro b hb
    cases k with
    | succ k =>
      rw [removeAllFrom] at hb
      exact List.mem_cons_of_mem c (ih k b hb)
    | zero =>
      rw [removeAllFrom] at hb
      cases hm : matchLen (c :: t) with
      | some len =>
        rw [hm] at hb
        exact List.mem_cons_of_mem c (ih _ b hb)
      | none =>
        rw [hm] at hb
        rcases List.mem_cons.mp hb with h | h
        · rw [h]; exact List.mem_cons_self c t
        · exact List.mem_cons_of_mem c (ih _ b h)

theorem lit_gt : lit ">" = [0x3E] := rfl

theorem tagMatchLen_eq_none_iff (b : Nat) (t : Str) :
    tagMatchLen (b :: t) = none ↔ (b = 0x3C → 0x3E ∉ t) := by
  unfold tagMatchLen
  by_cases hb : b = 0x3C
  · simp only [hb, if_true, Option.map_eq_none', stringsIndex_eq_none_iff, lit_gt,
      true_implies]
    constructor
    · intro h hm
      apply h
      obtain ⟨a, c, hac⟩ := List.append_of_mem hm
      exact ⟨a, c, by rw [hac]; simp⟩
    · rintro h ⟨a, c, hac⟩
      apply h
      rw [← hac]
      simp
  · simp [hb]

theorem NoTag_cons {b : Nat} {t : Str} (hb : tagMatchLen (b :: t) = none) (ht : NoTag t) :
    NoTag (b :: t) := by
  intro pre u hs
  cases pre with
  | nil =>
    simp only [List.nil_append] at hs
    rw [← hs]; exact hb
  | cons c pre2 =>
    simp only [List.cons_append, List.cons.injEq] at hs
    exact ht pre2 u hs.2

theorem NoTag_nil : NoTag [] := by
  intro pre t hs
  have := List.append_eq_nil.mp hs.symm
  rw [this.2]
  rfl

/-- What is left after the tags are deleted contains no tag. -/
theorem NoTag_removeAllFrom (k : Nat) (s : Str) : NoTag (removeAllFrom tagMatchLen k s) := by
  induction s generalizing k with
  | nil =>
    cases k <;> exact NoTag_nil
  | cons c t ih =>
    cases k with
    | succ k => rw [removeAllFrom]; exact ih k
    | zero =>
      rw [removeAllFrom]
      cases hm : tagMatchLen (c :: t) with
      | some len => exact ih _
      | none =>
        simp only
        apply NoTag_cons _ (ih 0)
        rw [tagMatchLen_eq_none_iff] at hm ⊢
        intro hc hmem
        exact hm hc (removeAllFrom_subset tagMatchLen 0 t _ hmem)

/-- A text without a tag is left as it is. -/
theorem removeAllFrom_of_NoTag (s : Str) (h : NoTag s) : removeAllFrom tagMatchLen 0 s = s := by
  induction s with
  | nil => rfl
  | cons c t ih =>
    have h0 : tagMatchLen (c :: t) = none := h [] (c :: t) rfl
    have ht : NoTag t := fun pre u hs => h (c :: pre) u (by rw [hs]; rfl)
    rw [removeAllFrom, h0]
    simp only
    rw [ih ht]

theorem NoTag_of_piece {s a c : Str} (h : NoTag (a ++ s ++ c)) : NoTag s := by
  intro pre t hs
  cases t with
  | nil => rfl
  | cons b u =>
    have h1 : tagMatchLen (b :: (u ++ c)) = none :=
      h (a ++ pre) (b :: (u ++ c)) (by rw [hs]; simp)
    rw [tagMatchLen_eq_none_iff] at h1 ⊢
    intro hb hm
    exact h1 hb (List.mem_append_left c hm)

theorem isSpaceRune_RuneError : isSpaceRune RuneError = false := by decide

/-- A white-space rune at the start of a text is still there when the text is
continued. -/
theorem decodeRune_append_of_space (y t : Str) (h : isSpaceRune (decodeRune y).1 = true) :
    decodeRune (y ++ t) = decodeRune y := by
  rcases y with _ | ⟨s0, _ | ⟨s1, _ | ⟨s2, _ | ⟨s3, y4⟩⟩⟩⟩
  · simp [decodeRune, isSpaceRune_RuneError] at h
  · simp only [decodeRune] at h
    split_ifs at h <;> simp_all [decodeRune, isSpaceRune_RuneError]
  · simp only [decodeRune] at h
    split_ifs at h <;> simp_all [decodeRune, isSpaceRune_RuneError]
  · simp only [decodeRune] at h
    split_ifs at h <;> simp_all [decodeRune, isSpaceRune_RuneError]
  · simp [decodeRune]

theorem trimLeftFrom_suffix (k : Nat) (s : Str) : trimLeftFrom k s <:+ s := by
  induction s generalizing k with
  | nil => cases k <;> exact List.suffix_refl _
  | cons b t ih =>
    cases k with
    | succ k =>
      rw [trimLeftFrom]
      exact (ih k).trans (List.suffix_cons b t)
    | zero =>
      rw [trimLeftFrom]
      split
      · exact (ih _).trans (List.suffix_cons b t)
      · exact List.suffix_refl _

theorem trimLeftFrom_head (k : Nat) (s : Str) :
    trimLeftFrom k s = [] ∨ isSpaceRune (decodeRune (trimLeftFrom k s)).1 = false := by
  induction s generalizing k with
  | nil => cases k <;> exact Or.inl rfl
  | cons b t ih =>
    cases k with
    | succ k => rw [trimLeftFrom]; exact ih k
    | zero =>
      rw [trimLeftFrom]
      split
      · exact ih _
      · rename_i h
        exact Or.inr (by simpa using h)

theorem trimLeftFrom_fix (s : Str) (h : s = [] ∨ isSpaceRune (decodeRune s).1 = false) :
    trimLeftFrom 0 s = s := by
  cases s with
  | nil => rfl
  | cons b t =>
    rcases h with h | h
    · cases h
    · rw [trimLeftFrom, h]
      simp

theorem trimRightRevFrom_suffix (k : Nat) (s : Str) : trimRightRevFrom k s <:+ s := by
  induction s generalizing k with
  | nil => cases k <;> exact List.suffix_refl _
  | cons b t ih =>
    cases k with
    | succ k =>
      rw [trimRightRevFrom]
      exact (ih k).trans (List.suffix_cons b t)
    | zero =>
      rw [trimRightRevFrom]
      split
      · exact (ih _).trans (List.suffix_cons b t)
      · exact List.suffix_refl _

theorem trimRightRevFrom_head (k : Nat) (s : Str) :
    trimRightRevFrom k s = []
      ∨ isSpaceRune (decodeLastRune (trimRightRevFrom k s)).1 = false := by
  induction s generalizing k with
  | nil => cases k <;> exact Or.inl rfl
  | cons b t ih =>
    cases k with
    | succ k => rw [trimRightRevFrom]; exact ih k
    | zero =>
      rw [trimRightRevFrom]
      split
      · exact ih _
      · rename_i h
        exact Or.inr (by simpa using h)

theorem trimRightRevFrom_fix (s : Str)
    (h : s = [] ∨ isSpaceRune (decodeLastRune s).1 = false) : trimRightRevFrom 0 s = s := by
  cases s with
  | nil => rfl
  | cons b t =>
    rcases h with h | h
    · cases h
    · rw [trimRightRevFrom, h]
      simp

/-- What `strings.TrimSpace` returns is a piece of its argument. -/
theorem stringsTrimSpace_piece (s : Str) : ∃ a c, s = a ++ stringsTrimSpace s ++ c := by
  obtain ⟨a, ha⟩ := trimLeftFrom_suffix 0 s
  obtain ⟨c, hc⟩ := trimRightRevFrom_suffix 0 (trimLeftFrom 0 s).reverse
  refine ⟨a, c.reverse, ?_⟩
  unfold stringsTrimSpace
  have h2 : trimLeftFrom 0 s
      = (trimRightRevFrom 0 (trimLeftFrom 0 s).reverse).reverse ++ c.reverse := by
    rw [← List.reverse_append, hc, List.reverse_reverse]
  rw [List.append_assoc, ← h2, ha]

/-- The function `strings.TrimSpace` is idempotent. -/
theorem stringsTrimSpace_idem (s : Str) :
    stringsTrimSpace (stringsTrimSpace s) = stringsTrimSpace s := by
  obtain ⟨c, hc⟩ := trimRightRevFrom_suffix 0 (trimLeftFrom 0 s).reverse
  have hpre : trimLeftFrom 0 s = stringsTrimSpace s ++ c.reverse := by
    unfold stringsTrimSpace
    rw [← List.reverse_append, hc, List.reverse_reverse]
  have hleft : trimLeftFrom 0 (stringsTrimSpace s) = stringsTrimSpace s := by
    apply trimLeftFrom_fix
    by_cases hy : stringsTrimSpace s = []
    · exact Or.inl hy
    · right
      rcases trimLeftFrom_head 0 s with h | h
      · rw [h] at hpre
        exact absurd (List.append_eq_nil.mp hpre.symm).1 hy
      · by_contra hsp
        have hsp2 : isSpaceRune (decodeRune (stringsTrimSpace s)).1 = true := by
          simpa using hsp
        have := decodeRune_append_of_space _ c.reverse hsp2
        rw [← hpre] at this
        rw [this, hsp2] at h
        cases h
  have hright : trimRightRevFrom 0 (trimRightRevFrom 0 (trimLeftFrom 0 s).reverse)
      = trimRightRevFrom 0 (trimLeftFrom 0 s).reverse :=
    trimRightRevFrom_fix _ (trimRightRevFrom_head 0 _)
  have hunf : stringsTrimSpace (stringsTrimSpace s)
      = (trimRightRevFrom 0 (trimLeftFrom 0 (stringsTrimSpace s)).reverse).reverse := rfl
  rw [hunf, hleft]
  unfold stringsTrimSpace
  rw [List.reverse_reverse, hright]

theorem cleanHTML_of_no_amp (x : Str) (h : 0x26 ∉ removeAllFrom tagMatchLen 0 x) :
    cleanHTML x = stringsTrimSpace (removeAllFrom tagMatchLen 0 x) := by
  unfold cleanHTML stringsReplaceAll
  have e1 : lit "&amp;" = 0x26 :: lit "amp;" := rfl
  have e2 : lit "&lt;" = 0x26 :: lit "lt;" := rfl
  have e3 : lit "&gt;" = 0x26 :: lit "gt;" := rfl
  have e4 : lit "&quot;" = 0x26 :: lit "quot;" := rfl
  have e5 : lit "&#39;" = 0x26 :: lit "#39;" := rfl
  have e6 : lit "&nbsp;" = 0x26 :: lit "nbsp;" := rfl
  simp only [e1, e2, e3, e4, e5, e6, replaceAllFrom_of_not_mem 0x26 _ _ _ h]

/-- A consequence on the input side: on every text without the byte `&`,
`cleanHTML` is idempotent. -/
theorem cleanHTML_idempotent_of_no_amp (x : Str) (hx : 0x26 ∉ x) :
    cleanHTML (cleanHTML x) = cleanHTML x := by
  have h1 : 0x26 ∉ removeAllFrom tagMatchLen 0 x :=
    fun h => hx (removeAllFrom_subset tagMatchLen 0 x _ h)
  rw [cleanHTML_of_no_amp x h1]
  obtain ⟨a, c, hac⟩ := stringsTrimSpace_piece (removeAllFrom tagMatchLen 0 x)
  have hno : NoTag (stringsTrimSpace (removeAllFrom tagMatchLen 0 x)) := by
    apply NoTag_of_piece (a := a) (c := c)
    rw [← hac]
    exact NoTag_removeAllFrom 0 x
  have h2 : removeAllFrom tagMatchLen 0 (stringsTrimSpace (removeAllFrom tagMatchLen 0 x))
      = stringsTrimSpace (removeAllFrom tagMatchLen 0 x) := removeAllFrom_of_NoTag _ hno
  have h3 : 0x26 ∉ stringsTrimSpace (removeAllFrom tagMatchLen 0 x) := by
    intro hm
    apply h1
    rw [hac]
    exact List.mem_append_left c (List.mem_append_right a hm)
  rw [cleanHTML_of_no_amp _ (by rw [h2]; exact h3), h2, stringsTrimSpace_idem]

theorem cleanHTML_idempotent_of_no_amp_witness :
    0x26 ∉ lit " <b>Jane</b> <i>Doe " ∧ cleanHTML (lit " <b>Jane</b> <i>Doe ") = lit "Jane Doe"
      ∧ cleanHTML (cleanHTML (lit " <b>Jane</b> <i>Doe "))
          = cleanHTML (lit " <b>Jane</b> <i>Doe ") :=
  ⟨by decide, by decide, cleanHTML_idempotent_of_no_amp (lit " <b>Jane</b> <i>Doe ") (by decide)⟩

theorem cleanHTML_eq (s : Str) :
    cleanHTML s = stringsTrimSpace (decodeEntities (removeAllFrom tagMatchLen 0 s)) := rfl

theorem NoTag_cons_iff (b : Nat) (t : Str) :
    NoTag (b :: t) ↔ tagMatchLen (b :: t) = none ∧ NoTag t := by
  constructor
  · intro h
    exact ⟨h [] (b :: t) rfl, fun pre u hs => h (b :: pre) u (by rw [hs]; rfl)⟩
  · rintro ⟨h1, h2⟩
    exact NoTag_cons h1 h2

theorem hasTag_eq_false_iff (s : Str) : hasTag s = false ↔ NoTag s := by
  induction s with
  | nil => simp [hasTag, NoTag_nil]
  | cons b t ih =>
    rw [NoTag_cons_iff, tagMatchLen_eq_none_iff, ← ih]
    simp only [hasTag, Bool.or_eq_false_iff, Bool.and_eq_false_imp, beq_iff_eq,
      List.contains_eq_any_beq, List.any_eq_false, Bool.not_eq_true]
    constructor
    · rintro ⟨h1, h2⟩
      refine ⟨fun hb hm => ?_, h2⟩
      have := h1 hb _ hm
      simp at this
    · rintro ⟨h1, h2⟩
      refine ⟨fun hb x hx => ?_, h2⟩
      by_contra hne
      have hx2 : 0x3E = x := by simpa using hne
      exact h1 hb (hx2 ▸ hx)

theorem replaceAllFrom_length_le (old new : Str) (h : new.length ≤ old.length) (k : Nat)
    (s : Str) : (replaceAllFrom old new k s).length ≤ s.length - k := by
  induction s generalizing k with
  | nil => cases k <;> simp [replaceAllFrom]
  | cons b t ih =>
    cases k with
    | succ k =>
      rw [replaceAllFrom]
      have := ih k
      simp only [List.length_cons]
      omega
    | zero =>
      rw [replaceAllFrom]
      split
      · rename_i hp
        have hlen := (List.isPrefixOf_iff_prefix.mp hp).length_le
        have := ih (old.length - 1)
        simp only [List.length_append, List.length_cons] at hlen ⊢
        omega
      · have := ih 0
        simp only [List.length_cons]
        omega

theorem replaceAllFrom_length_lt (old new : Str) (h : new.length < old.length) (s : Str)
    (hin : old <:+: s) : (replaceAllFrom old new 0 s).length < s.length := by
  induction s with
  | nil =>
    have := List.eq_nil_of_infix_nil hin
    rw [this] at h
    simp at h
  | cons b t ih =>
    rw [replaceAllFrom]
    split
    · rename_i hp
      have hlen := (List.isPrefixOf_iff_prefix.mp hp).length_le
      have := replaceAllFrom_length_le old new (Nat.le_of_lt h) (old.length - 1) t
      simp only [List.length_append, List.length_cons] at hlen ⊢
      omega
    · rename_i hp
      have ht : old <:+: t := by
        rcases List.infix_cons_iff.mp hin with h1 | h1
        · exact absurd (List.isPrefixOf_iff_prefix.mpr h1) hp
        · exact h1
      have := ih ht
      simp only [List.length_cons]
      omega

theorem replaceAllFrom_of_absent (old new s : Str) (h : ¬ old <:+: s) :
    replaceAllFrom old new 0 s = s := by
  induction s with
  | nil => rfl
  | cons b t ih =>
    have hp : old.isPrefixOf (b :: t) = false := by
      rw [Bool.eq_false_iff]
      exact fun hp => h (List.isPrefixOf_iff_prefix.mp hp).isInfix
    have ht : ¬ old <:+: t := fun ht => h (List.infix_cons_iff.mpr (Or.inr ht))
    rw [replaceAllFrom, hp, ih ht]
    rfl

theorem removeAllFrom_length_le (matchLen : Str → Option Nat) (k : Nat) (s : Str) :
    (removeAllFrom matchLen k s).length ≤ s.length - k := by
  induction s generalizing k with
  | nil => cases k <;> simp [removeAllFrom]
  | cons b t ih =>
    cases k with
    | succ k =>
      rw [removeAllFrom]
      have := ih k
      simp only [List.length_cons]
      omega
    | zero =>
      rw [removeAllFrom]
      split
      · rename_i len _
        have := ih (len - 1)
        simp only [List.length_cons]
        omega
      · have := ih 0
        simp only [List.length_cons]
        omega

theorem removeAllFrom_length_lt (s : Str) (h : ¬ NoTag s) :
    (removeAllFrom tagMatchLen 0 s).length < s.length := by
  induction s with
  | nil => exact absurd NoTag_nil h
  | cons b t ih =>
    rw [removeAllFrom]
    split
    · rename_i len _
      have := removeAllFrom_length_le tagMatchLen (len - 1) t
      simp only [List.length_cons]
      omega
    · rename_i hm
      have ht : ¬ NoTag t := fun ht => h (NoTag_cons hm ht)
      have := ih ht
      simp only [List.length_cons]
      omega

theorem stringsTrimSpace_length_le (s : Str) : (stringsTrimSpace s).length ≤ s.length := by
  obtain ⟨a, c, hac⟩ := stringsTrimSpace_piece s
  have := congrArg List.length hac
  simp only [List.length_append] at this
  omega

theorem stringsReplaceAll_length_le (s old new : Str) (h : new.length ≤ old.length) :
    (stringsReplaceAll s old new).length ≤ s.length := by
  have := replaceAllFrom_length_le old new h 0 s
  unfold stringsReplaceAll
  omega

theorem decodeEntities_length_le (s : Str) : (decodeEntities s).length ≤ s.length := by
  unfold decodeEntities
  have h1 := stringsReplaceAll_length_le s (lit "&amp;") (lit "&") (by decide)
  have h2 := stringsReplaceAll_length_le (stringsReplaceAll s (lit "&amp;") (lit "&"))
    (lit "&lt;") (lit "<") (by decide)
  have h3 := stringsReplaceAll_length_le _ (lit "&gt;") (lit ">") (by decide) |>.trans h2
  have h4 := stringsReplaceAll_length_le _ (lit "&quot;") (lit "\"") (by decide) |>.trans h3
  have h5 := stringsReplaceAll_length_le _ (lit "&#39;") [0x27] (by decide) |>.trans h4
  have h6 := stringsReplaceAll_length_le _ (lit "&nbsp;") (lit " ") (by decide) |>.trans h5
  exact h6.trans h1

/-- A text without any of the six entities is left as it is. -/
theorem decodeEntities_of_absent (s : Str) (h : ∀ e ∈ entities, ¬ e <:+: s) :
    decodeEntities s = s := by
  unfold decodeEntities stringsReplaceAll
  rw [replaceAllFrom_of_absent _ _ s (h _ (by simp [entities])),
    replaceAllFrom_of_absent _ _ s (h _ (by simp [entities])),
    replaceAllFrom_of_absent _ _ s (h _ (by simp [entities])),
    replaceAllFrom_of_absent _ _ s (h _ (by simp [entities])),
    replaceAllFrom_of_absent _ _ s (h _ (by simp [entities])),
    replaceAllFrom_of_absent _ _ s (h _ (by simp [entities]))]

/-- A text with one of the six entities gets shorter. -/
theorem decodeEntities_length_lt (s : Str) (h : ¬ ∀ e ∈ entities, ¬ e <:+: s) :
    (decodeEntities s).length < s.length := by
  unfold decodeEntities
  by_cases h1 : lit "&amp;" <:+: s
  · have a1 := replaceAllFrom_length_lt (lit "&amp;") (lit "&") (by decide) s h1
    have a2 := stringsReplaceAll_length_le (stringsReplaceAll s (lit "&amp;") (lit "&"))
      (lit "&lt;") (lit "<") (by decide)
    have a3 := stringsReplaceAll_length_le _ (lit "&gt;") (lit ">") (by decide) |>.trans a2
    have a4 := stringsReplaceAll_length_le _ (lit "&quot;") (lit "\"") (by decide) |>.trans a3
    have a5 := stringsReplaceAll_length_le _ (lit "&#39;") [0x27] (by decide) |>.trans a4
    have a6 := stringsReplaceAll_length_le _ (lit "&nbsp;") (lit " ") (by decide) |>.trans a5
    exact Nat.lt_of_le_of_lt a6 a1
  have e1 : stringsReplaceAll s (lit "&amp;") (lit "&") = s := replaceAllFrom_of_absent _ _ s h1
  rw [e1]
  by_cases h2 : lit "&lt;" <:+: s
  · have a2 := replaceAllFrom_length_lt (lit "&lt;") (lit "<") (by decide) s h2
    have a3 := stringsReplaceAll_length_le (stringsReplaceAll s (lit "&lt;") (lit "<"))
      (lit "&gt;") (lit ">") (by decide)
    have a4 := stringsReplaceAll_length_le _ (lit "&quot;") (lit "\"") (by decide) |>.trans a3
    have a5 := stringsReplaceAll_length_le _ (lit "&#39;") [0x27] (by decide) |>.trans a4
    have a6 := stringsReplaceAll_length_le _ (lit "&nbsp;") (lit " ") (by decide) |>.trans a5
    exact Nat.lt_of_le_of_lt a6 a2
  have e2 : stringsReplaceAll s (lit "&lt;") (lit "<") = s := replaceAllFrom_of_absent _ _ s h2
  rw [e2]
  by_cases h3 : lit "&gt;" <:+: s
  · have a3 := replaceAllFrom_length_lt (lit "&gt;") (lit ">") (by decide) s h3
    have a4 := stringsReplaceAll_length_le (stringsReplaceAll s (lit "&gt;") (lit ">"))
      (lit "&quot;") (lit "\"") (by decide)
    have a5 := stringsReplaceAll_length_le _ (lit "&#39;") [0x27] (by decide) |>.trans a4
    have a6 := stringsReplaceAll_length_le _ (lit "&nbsp;") (lit " ") (by decide) |>.trans a5
    exact Nat.lt_of_le_of_lt a6 a3
  have e3 : stringsReplaceAll s (lit "&gt;") (lit ">") = s := replaceAllFrom_of_absent _ _ s h3
  rw [e3]
  by_cases h4 : lit "&quot;" <:+: s
  · have a4 := replaceAllFrom_length_lt (lit "&quot;") (lit "\"") (by decide) s h4
    have a5 := stringsReplaceAll_length_le (stringsReplaceAll s (lit "&quot;") (lit "\""))
      (lit "&#39;") [0x27] (by decide)
    have a6 := stringsReplaceAll_length_le _ (lit "&nbsp;") (lit " ") (by decide) |>.trans a5
    exact Nat.lt_of_le_of_lt a6 a4
  have e4 : stringsReplaceAll s (lit "&quot;") (lit "\"") = s :=
    replaceAllFrom_of_absent _ _ s h4
  rw [e4]
  by_cases h5 : lit "&#39;" <:+: s
  · have a5 := replaceAllFrom_length_lt (lit "&#39;") [0x27] (by decide) s h5
    have a6 := stringsReplaceAll_length_le (stringsReplaceAll s (lit "&#39;") [0x27])
      (lit "&nbsp;") (lit " ") (by decide)
    exact Nat.lt_of_le_of_lt a6 a5
  have e5 : stringsReplaceAll s (lit "&#39;") [0x27] = s := replaceAllFrom_of_absent _ _ s h5
  rw [e5]
  by_cases h6 : lit "&nbsp;" <:+: s
  · exact replaceAllFrom_length_lt (lit "&nbsp;") (lit " ") (by decide) s h6
  exfalso
  apply h
  intro e he
  simp only [entities, List.mem_cons, List.mem_singleton, List.not_mem_nil, or_false] at he
  rcases he with rfl | rfl | rfl | rfl | rfl | rfl <;> assumption

/-- C6 as amended: a second pass of `cleanHTML` changes nothing exactly when
the result of the first pass has no `<...>` span left (no `<` with a `>`
somewhere after it) and contains none of the six entities. -/
theorem cleanHTML_idempotent_iff (x : Str) :
    cleanHTML (cleanHTML x) = cleanHTML x
      ↔ hasTag (cleanHTML x) = false ∧ ∀ e ∈ entities, ¬ e <:+: cleanHTML x := by
  constructor
  · intro hfix
    have hlen : (cleanHTML (cleanHTML x)).length = (cleanHTML x).length := by rw [hfix]
    have l1 := stringsTrimSpace_length_le
      (decodeEntities (removeAllFrom tagMatchLen 0 (cleanHTML x)))
    have l2 := decodeEntities_length_le (removeAllFrom tagMatchLen 0 (cleanHTML x))
    have l3 := removeAllFrom_length_le tagMatchLen 0 (cleanHTML x)
    rw [← cleanHTML_eq] at l1
    have hno : NoTag (cleanHTML x) := by
      by_contra hn
      have := removeAllFrom_length_lt (cleanHTML x) hn
      omega
    refine ⟨(hasTag_eq_false_iff _).mpr hno, ?_⟩
    by_contra hent
    have l4 := decodeEntities_length_lt (cleanHTML x) hent
    rw [removeAllFrom_of_NoTag _ hno] at l1 l2
    omega
  · rintro ⟨htag, hent⟩
    have hno : NoTag (cleanHTML x) := (hasTag_eq_false_iff _).mp htag
    rw [cleanHTML_eq (cleanHTML x), removeAllFrom_of_NoTag _ hno,
      decodeEntities_of_absent _ hent, cleanHTML_eq x, stringsTrimSpace_idem]

set_option maxRecDepth 100000 in
theorem cleanHTML_idempotent_iff_witness :
    (cleanHTML (lit "Science &amp; Technology") = lit "Science & Technology"
      ∧ cleanHTML (cleanHTML (lit "Science &amp; Technology"))
          = cleanHTML (lit "Science &amp; Technology"))
    ∧ (cleanHTML (lit " <b>Jane&nbsp;Doe</b> ") = lit "Jane Doe"
      ∧ cleanHTML (cleanHTML (lit " <b>Jane&nbsp;Doe</b> "))
          = cleanHTML (lit " <b>Jane&nbsp;Doe</b> "))
    ∧ (hasTag (cleanHTML (lit "&lt;b&gt;")) = true
      ∧ cleanHTML (cleanHTML (lit "&lt;b&gt;")) ≠ cleanHTML (lit "&lt;b&gt;")) :=
  ⟨⟨by decide, (cleanHTML_idempotent_iff (lit "Science &amp; Technology")).mpr
      ⟨by decide, by decide⟩⟩,
    ⟨by decide, (cleanHTML_idempotent_iff (lit " <b>Jane&nbsp;Doe</b> ")).mpr
      ⟨by decide, by decide⟩⟩,
    ⟨by decide, fun h => absurd ((cleanHTML_idempotent_iff (lit "&lt;b&gt;")).mp h).1
      (by decide)⟩⟩

/-! ## Claims on `extractFromTable` -/

theorem NoStart_append {P A B F : Str} (hA : NoStart P A (B ++ F)) (hB : NoStart P B F) :
    NoStart P (A ++ B) F := by
  induction A with
  | nil => exact hB
  | cons b A ih =>
    obtain ⟨h1, h2⟩ := hA
    refine ⟨?_, ih h2⟩
    have e : b :: A.append B ++ F = b :: A ++ (B ++ F) := by
      show (b :: (A ++ B)) ++ F = b :: A ++ (B ++ F)
      simp
    rw [e]
    exact h1

theorem NoStart_of_suffixes {P A F : Str}
    (h : ∀ pre t, A = pre ++ t → t ≠ [] → ¬ P <+: t ++ F) : NoStart P A F := by
  induction A with
  | nil => trivial
  | cons b A ih =>
    refine ⟨h [] (b :: A) rfl (List.cons_ne_nil b A), ih ?_⟩
    intro pre t hs ht
    exact h (b :: pre) t (by rw [hs]; rfl) ht

/-- A five-byte closing tag that does not occur in a content cannot start
inside the content when a tag follows it. -/
theorem NoStart_content (p1 p2 p3 p4 : Nat) (h1 : p1 ≠ 0x3C) (h2 : p2 ≠ 0x3C)
    (h3 : p3 ≠ 0x3C) (h4 : p4 ≠ 0x3C) (c F : Str)
    (hc : ¬ [0x3C, p1, p2, p3, p4] <:+: c) :
    NoStart [0x3C, p1, p2, p3, p4] c (0x3C :: F) := by
  apply NoStart_of_suffixes
  intro pre t hs ht hp
  rcases t with _ | ⟨t0, _ | ⟨t1, _ | ⟨t2, _ | ⟨t3, _ | ⟨t4, t5⟩⟩⟩⟩⟩
  · exact ht rfl
  · simp only [List.cons_append, List.nil_append, List.cons_prefix_cons] at hp
    exact h1 hp.2.1
  · simp only [List.cons_append, List.nil_append, List.cons_prefix_cons] at hp
    exact h2 hp.2.2.1
  · simp only [List.cons_append, List.nil_append, List.cons_prefix_cons] at hp
    exact h3 hp.2.2.2.1
  · simp only [List.cons_append, List.nil_append, List.cons_prefix_cons] at hp
    exact h4 hp.2.2.2.2.1
  · simp only [List.cons_append, List.cons_prefix_cons] at hp
    obtain ⟨e0, e1, e2, e3, e4, _⟩ := hp
    apply hc
    refine ⟨pre, t5, ?_⟩
    rw [hs, e0, e1, e2, e3, e4]
    simp

theorem stringsIndex_self_append (P R : Str) : stringsIndex (P ++ R) P = some 0 := by
  cases h : P ++ R with
  | nil =>
    have := (List.append_eq_nil.mp h).1
    simp [stringsIndex, this]
  | cons b t =>
    rw [stringsIndex, ← h, List.isPrefixOf_iff_prefix.mpr (List.prefix_append P R)]
    rfl

theorem stringsIndex_append_of_NoStart {P A R : Str} (h : NoStart P A (P ++ R)) :
    stringsIndex (A ++ (P ++ R)) P = some A.length := by
  induction A with
  | nil => exact stringsIndex_self_append P R
  | cons b A ih =>
    obtain ⟨h1, h2⟩ := h
    have hp : P.isPrefixOf (b :: (A ++ (P ++ R))) = false := by
      rw [Bool.eq_false_iff]
      exact fun hp => h1 (List.isPrefixOf_iff_prefix.mp hp)
    rw [List.cons_append, stringsIndex, hp, ih h2]
    rfl

theorem cellCloseIndex_append_of_NoStart {A F : Str}
    (hd : NoStart (lit "</td>") A F) (hh : NoStart (lit "</th>") A F)
    (hF : lit "</td>" <+: F ∨ lit "</th>" <+: F) :
    cellCloseIndex (A ++ F) = some A.length := by
  induction A with
  | nil =>
    have hne : F ≠ [] := by
      rintro rfl
      rcases hF with h | h <;> simp [lit] at h
    obtain ⟨b, t, rfl⟩ := List.exists_cons_of_ne_nil hne
    rw [List.nil_append, cellCloseIndex]
    rcases hF with h | h
    · rw [List.isPrefixOf_iff_prefix.mpr h]; rfl
    · rw [List.isPrefixOf_iff_prefix.mpr h]; simp
  | cons b A ih =>
    obtain ⟨d1, d2⟩ := hd
    obtain ⟨e1, e2⟩ := hh
    have hp1 : (lit "</td>").isPrefixOf (b :: (A ++ F)) = false := by
      rw [Bool.eq_false_iff]
      exact fun hp => d1 (List.isPrefixOf_iff_prefix.mp hp)
    have hp2 : (lit "</th>").isPrefixOf (b :: (A ++ F)) = false := by
      rw [Bool.eq_false_iff]
      exact fun hp => e1 (List.isPrefixOf_iff_prefix.mp hp)
    rw [List.cons_append, cellCloseIndex, hp1, hp2, ih d2 e2]
    rfl

theorem findAllFrom_skip (matchAt : Str → Option (Str × Nat)) (X rest : Str) :
    findAllFrom matchAt X.length (X ++ rest) = findAllFrom matchAt 0 rest := by
  induction X with
  | nil =>
    cases rest <;> rfl
  | cons b X ih =>
    rw [List.length_cons, List.cons_append, findAllFrom, ih]

theorem findAllFrom_match (matchAt : Str → Option (Str × Nat)) (X rest cap : Str)
    (hX : X ≠ []) (hm : matchAt (X ++ rest) = some (cap, X.length)) :
    findAllFrom matchAt 0 (X ++ rest) = cap :: findAllFrom matchAt 0 rest := by
  obtain ⟨b, Y, rfl⟩ := List.exists_cons_of_ne_nil hX
  rw [List.cons_append] at hm ⊢
  rw [findAllFrom, hm]
  simp only [List.length_cons, Nat.add_sub_cancel]
  rw [findAllFrom_skip]

theorem findAllFrom_no_match (matchAt : Str → Option (Str × Nat)) (b : Nat) (t : Str)
    (hm : matchAt (b :: t) = none) :
    findAllFrom matchAt 0 (b :: t) = findAllFrom matchAt 0 t := by
  rw [findAllFrom, hm]

theorem lit_close_td : lit "</td>" = [0x3C, 0x2F, 0x74, 0x64, 0x3E] := rfl
theorem lit_close_th : lit "</th>" = [0x3C, 0x2F, 0x74, 0x68, 0x3E] := rfl
theorem lit_close_tr : lit "</tr>" = [0x3C, 0x2F, 0x74, 0x72, 0x3E] := rfl
theorem lit_close_tr_open : lit "</tr" = [0x3C, 0x2F, 0x74, 0x72] := rfl
theorem lit_td : lit "<td" = [0x3C, 0x74, 0x64] := rfl
theorem lit_th : lit "<th" = [0x3C, 0x74, 0x68] := rfl
theorem lit_tr : lit "<tr" = [0x3C, 0x74, 0x72] := rfl

theorem NoStart_of_not_mem (p0 : Nat) (ps A F : Str) (h : p0 ∉ A) :
    NoStart (p0 :: ps) A F := by
  induction A with
  | nil => trivial
  | cons b A ih =>
    refine ⟨?_, ih (fun hm => h (List.mem_cons_of_mem b hm))⟩
    rw [List.cons_append, List.cons_prefix_cons]
    rintro ⟨rfl, _⟩
    exact h (List.mem_cons_self _ _)

/-- An opening tag of three bytes that does not occur in a text cannot start
inside the text when the text ends the string or a tag follows it. -/
theorem NoStart_gap (p1 p2 : Nat) (h1 : p1 ≠ 0x3C) (h2 : p2 ≠ 0x3C) (g F : Str)
    (hg : ¬ [0x3C, p1, p2] <:+: g) (hF : F = [] ∨ ∃ G, F = 0x3C :: G) :
    NoStart [0x3C, p1, p2] g F := by
  apply NoStart_of_suffixes
  intro pre t hs ht hp
  rcases t with _ | ⟨t0, _ | ⟨t1, _ | ⟨t2, t3⟩⟩⟩
  · exact ht rfl
  · rcases hF with rfl | ⟨G, rfl⟩
    · have := hp.length_le
      simp at this
    · simp only [List.cons_append, List.nil_append, List.cons_prefix_cons] at hp
      exact h1 hp.2.1
  · rcases hF with rfl | ⟨G, rfl⟩
    · have := hp.length_le
      simp at this
    · simp only [List.cons_append, List.nil_append, List.cons_prefix_cons] at hp
      exact h2 hp.2.2.1
  · simp only [List.cons_append, List.cons_prefix_cons] at hp
    obtain ⟨e0, e1, e2, _⟩ := hp
    apply hg
    refine ⟨pre, t3, ?_⟩
    rw [hs, e0, e1, e2]
    simp

/-- The closing row tag cannot start inside an attribute text that has no `>`
and does not end in `</tr`. -/
theorem NoStart_tr_attrs (attrs F : Str) (h1 : 0x3E ∉ attrs) (h2 : ¬ lit "</tr" <:+ attrs) :
    NoStart (lit "</tr>") attrs (0x3E :: F) := by
  rw [lit_close_tr]
  rw [lit_close_tr_open] at h2
  apply NoStart_of_suffixes
  intro pre t hs ht hp
  rcases t with _ | ⟨t0, _ | ⟨t1, _ | ⟨t2, _ | ⟨t3, _ | ⟨t4, t5⟩⟩⟩⟩⟩
  · exact ht rfl
  · simp only [List.cons_append, List.nil_append, List.cons_prefix_cons] at hp
    exact absurd hp.2.1 (by decide)
  · simp only [List.cons_append, List.nil_append, List.cons_prefix_cons] at hp
    exact absurd hp.2.2.1 (by decide)
  · simp only [List.cons_append, List.nil_append, List.cons_prefix_cons] at hp
    exact absurd hp.2.2.2.1 (by decide)
  · simp only [List.cons_append, List.nil_append, List.cons_prefix_cons] at hp
    obtain ⟨e0, e1, e2, e3, _⟩ := hp
    apply h2
    refine ⟨pre, ?_⟩
    rw [hs, e0, e1, e2, e3]
  · simp only [List.cons_append, List.cons_prefix_cons] at hp
    obtain ⟨_, _, _, _, e4, _⟩ := hp
    apply h1
    rw [hs, e4]
    simp

theorem findAllFrom_skip_NoMatch (m : Str → Option (Str × Nat)) (A F : Str)
    (h : NoMatch m A F) : findAllFrom m 0 (A ++ F) = findAllFrom m 0 F := by
  induction A with
  | nil => rfl
  | cons b A ih =>
    obtain ⟨h1, h2⟩ := h
    rw [List.cons_append] at h1 ⊢
    rw [findAllFrom_no_match m b _ h1, ih h2]

theorem NoMatch_row (A F : Str) (h : NoStart (lit "<tr") A F) : NoMatch rowMatchAt A F := by
  induction A with
  | nil => trivial
  | cons b A ih =>
    obtain ⟨h1, h2⟩ := h
    refine ⟨?_, ih h2⟩
    unfold rowMatchAt
    rw [if_neg (fun hp => h1 (List.isPrefixOf_iff_prefix.mp hp))]

theorem NoMatch_cell (A F : Str) (hd : NoStart (lit "<td") A F) (hh : NoStart (lit "<th") A F) :
    NoMatch cellMatchAt A F := by
  induction A with
  | nil => trivial
  | cons b A ih =>
    obtain ⟨d1, d2⟩ := hd
    obtain ⟨e1, e2⟩ := hh
    refine ⟨?_, ih d2 e2⟩
    unfold cellMatchAt
    rw [if_neg]
    intro hp
    rcases Bool.or_eq_true _ _ ▸ hp with hp | hp
    · exact d1 (List.isPrefixOf_iff_prefix.mp hp)
    · exact e1 (List.isPrefixOf_iff_prefix.mp hp)

/-- No cell starts inside a text between cells. -/
theorem NoMatch_cellGap (g F : Str) (hg : cellGap g) (hF : F = [] ∨ ∃ G, F = 0x3C :: G) :
    NoMatch cellMatchAt g F := by
  apply NoMatch_cell
  · have := hg.1
    rw [lit_td] at this ⊢
    exact NoStart_gap _ _ (by decide) (by decide) g F this hF
  · have := hg.2.1
    rw [lit_th] at this ⊢
    exact NoStart_gap _ _ (by decide) (by decide) g F this hF

/-- No row starts inside a text between rows. -/
theorem NoMatch_rowGap (g F : Str) (hg : rowGap g) (hF : F = [] ∨ ∃ G, F = 0x3C :: G) :
    NoMatch rowMatchAt g F := by
  apply NoMatch_row
  unfold rowGap at hg
  rw [lit_tr] at hg ⊢
  exact NoStart_gap _ _ (by decide) (by decide) g F hg hF

theorem stringsIndex_gt (attrs Y : Str) (h : 0x3E ∉ attrs) :
    stringsIndex (attrs ++ 0x3E :: Y) (lit ">") = some attrs.length := by
  have := stringsIndex_append_of_NoStart (P := lit ">") (A := attrs) (R := Y)
    (by rw [lit_gt]; exact NoStart_of_not_mem _ _ _ _ h)
  rw [lit_gt] at this ⊢
  exact this

/-- The text after an opening tag of three bytes, attribute text and `>`. -/
theorem drop_open_tag (b0 b1 b2 : Nat) (attrs Y : Str) :
    (b0 :: b1 :: b2 :: (attrs ++ 0x3E :: Y)).drop (3 + attrs.length + 1) = Y := by
  have e : 3 + attrs.length + 1 = (attrs.length + 1) + 1 + 1 + 1 := by omega
  rw [e]
  simp only [List.drop_succ_cons]
  have e2 : attrs ++ 0x3E :: Y = (attrs ++ [0x3E]) ++ Y := by simp
  rw [e2]
  exact List.drop_left' (by simp)

theorem isPrefixOf_open_td (Z : Str) :
    ((lit "<td").isPrefixOf (0x3C :: 0x74 :: 0x64 :: Z)
      || (lit "<th").isPrefixOf (0x3C :: 0x74 :: 0x64 :: Z)) = true := by
  rw [lit_td, lit_th]
  simp [List.isPrefixOf]

theorem isPrefixOf_open_th (Z : Str) :
    ((lit "<td").isPrefixOf (0x3C :: 0x74 :: 0x68 :: Z)
      || (lit "<th").isPrefixOf (0x3C :: 0x74 :: 0x68 :: Z)) = true := by
  rw [lit_td, lit_th]
  simp [List.isPrefixOf]

theorem isPrefixOf_open_tr (Z : Str) :
    (lit "<tr").isPrefixOf (0x3C :: 0x74 :: 0x72 :: Z) = true := by
  rw [lit_tr]
  simp [List.isPrefixOf]

theorem renderCell_length (c : Cell) :
    (renderCell c).length = 3 + c.attrs.length + 1 + c.content.length + 5 := by
  obtain ⟨header, attrs, content, after⟩ := c
  cases header <;> simp [renderCell, lit_td, lit_th, lit_gt, lit_close_td, lit_close_th] <;> omega

theorem renderCell_ne_nil (c : Cell) : renderCell c ≠ [] := by
  intro h
  have := congrArg List.length h
  rw [renderCell_length, List.length_nil] at this
  omega

theorem renderCell_head (c : Cell) : ∃ G, renderCell c = 0x3C :: G := by
  obtain ⟨header, attrs, content, after⟩ := c
  cases header
  · exact ⟨_, rfl⟩
  · exact ⟨_, rfl⟩

theorem renderCells_head (cells : List Cell) :
    renderCells cells = [] ∨ ∃ G, renderCells cells = 0x3C :: G := by
  cases cells with
  | nil => exact Or.inl rfl
  | cons c cs =>
    obtain ⟨G, hG⟩ := renderCell_head c
    exact Or.inr ⟨G ++ (c.after ++ renderCells cs), by rw [renderCells, hG]; rfl⟩

theorem head_append_lt (A G : Str) (hA : A = [] ∨ ∃ G0, A = 0x3C :: G0) :
    ∃ G2, A ++ 0x3C :: G = 0x3C :: G2 := by
  rcases hA with rfl | ⟨G0, rfl⟩
  · exact ⟨G, rfl⟩
  · exact ⟨G0 ++ 0x3C :: G, rfl⟩

/-- The cell expression matches a rendered cell and captures its content. -/
theorem cellMatchAt_renderCell (c : Cell) (rest : Str) (ha : 0x3E ∉ c.attrs)
    (hd : ¬ lit "</td>" <:+: c.content) (hh : ¬ lit "</th>" <:+: c.content) :
    cellMatchAt (renderCell c ++ rest) = some (c.content, (renderCell c).length) := by
  obtain ⟨header, attrs, content, after⟩ := c
  simp only at ha hd hh
  have hclose : ∀ F : Str, (lit "</td>" <+: 0x3C :: F ∨ lit "</th>" <+: 0x3C :: F) →
      cellCloseIndex (content ++ 0x3C :: F) = some content.length := by
    intro F hF
    apply cellCloseIndex_append_of_NoStart _ _ hF
    · rw [lit_close_td] at hd ⊢
      exact NoStart_content _ _ _ _ (by decide) (by decide) (by decide) (by decide) content F hd
    · rw [lit_close_th] at hh ⊢
      exact NoStart_content _ _ _ _ (by decide) (by decide) (by decide) (by decide) content F hh
  rw [renderCell_length]
  cases header
  · have e : renderCell ⟨false, attrs, content, after⟩ ++ rest
        = 0x3C :: 0x74 :: 0x64
            :: (attrs ++ 0x3E :: (content ++ 0x3C :: ([0x2F, 0x74, 0x64, 0x3E] ++ rest))) := by
      simp [renderCell, lit_td, lit_gt, lit_close_td]
    have hF := hclose ([0x2F, 0x74, 0x64, 0x3E] ++ rest)
      (Or.inl (by rw [lit_close_td]; exact ⟨rest, rfl⟩))
    rw [e]
    unfold cellMatchAt
    rw [if_pos (isPrefixOf_open_td _), List.drop_succ_cons, List.drop_succ_cons,
      List.drop_succ_cons, List.drop_zero, stringsIndex_gt attrs _ ha]
    simp only
    rw [drop_open_tag, hF]
    simp only [List.take_left]
  · have e : renderCell ⟨true, attrs, content, after⟩ ++ rest
        = 0x3C :: 0x74 :: 0x68
            :: (attrs ++ 0x3E :: (content ++ 0x3C :: ([0x2F, 0x74, 0x68, 0x3E] ++ rest))) := by
      simp [renderCell, lit_th, lit_gt, lit_close_th]
    have hF := hclose ([0x2F, 0x74, 0x68, 0x3E] ++ rest)
      (Or.inr (by rw [lit_close_th]; exact ⟨rest, rfl⟩))
    rw [e]
    unfold cellMatchAt
    rw [if_pos (isPrefixOf_open_th _), List.drop_succ_cons, List.drop_succ_cons,
      List.drop_succ_cons, List.drop_zero, stringsIndex_gt attrs _ ha]
    simp only
    rw [drop_open_tag, hF]
    simp only [List.take_left]

/-- The cell expression finds the cells of a rendered row, in order. -/
theorem findAllFrom_renderCells (cells : List Cell) (h : ∀ c ∈ cells, wellFormedCell c) :
    findAllFrom cellMatchAt 0 (renderCells cells) = cells.map Cell.content := by
  induction cells with
  | nil => rfl
  | cons c cs ih =>
    have hc := h c (List.mem_cons_self c cs)
    rw [renderCells, findAllFrom_match cellMatchAt _ _ c.content (renderCell_ne_nil c)
      (cellMatchAt_renderCell c _ hc.1 hc.2.2.1.2.1 hc.2.2.1.2.2),
      findAllFrom_skip_NoMatch cellMatchAt _ _
        (NoMatch_cellGap c.after _ hc.2.2.2 (renderCells_head cs)),
      ih (fun d hd => h d (List.mem_cons_of_mem c hd))]
    rfl

theorem findAllFrom_rowBody (r : Row) (h : wellFormedRow r) :
    findAllFrom cellMatchAt 0 (rowBody r) = r.cells.map Cell.content := by
  unfold rowBody
  rw [findAllFrom_skip_NoMatch cellMatchAt _ _
    (NoMatch_cellGap r.before _ h.2.1 (renderCells_head r.cells)),
    findAllFrom_renderCells r.cells h.2.2.1]

theorem NoStart_tr_gap (g G : Str) (hg : cellGap g) :
    NoStart (lit "</tr>") g (0x3C :: G) := by
  have := hg.2.2
  rw [lit_close_tr] at this ⊢
  exact NoStart_content _ _ _ _ (by decide) (by decide) (by decide) (by decide) g G this

theorem NoStart_tr_renderCell (c : Cell) (F : Str) (hc : wellFormedCell c) :
    NoStart (lit "</tr>") (renderCell c) F := by
  obtain ⟨header, attrs, content, after⟩ := c
  obtain ⟨h1, h2, h3, _⟩ := hc
  simp only at h1 h2 h3
  have hcontent : ∀ G : Str, NoStart (lit "</tr>") content (0x3C :: G) := by
    intro G
    have := h3.1
    rw [lit_close_tr] at this ⊢
    exact NoStart_content _ _ _ _ (by decide) (by decide) (by decide) (by decide) content G this
  have hattrs : ∀ G : Str, NoStart (lit "</tr>") attrs (0x3E :: G) :=
    fun G => NoStart_tr_attrs attrs G h1 h2
  cases header
  · have e : renderCell ⟨false, attrs, content, after⟩
        = [0x3C, 0x74, 0x64] ++ (attrs ++ ([0x3E] ++ (content ++ [0x3C, 0x2F, 0x74, 0x64, 0x3E]))) :=
      rfl
    rw [e]
    apply NoStart_append
    · simp [NoStart, lit_close_tr]
    · apply NoStart_append (hattrs _)
      apply NoStart_append
      · simp [NoStart, lit_close_tr]
      · apply NoStart_append
        · exact hcontent _
        · simp [NoStart, lit_close_tr]
  · have e : renderCell ⟨true, attrs, content, after⟩
        = [0x3C, 0x74, 0x68] ++ (attrs ++ ([0x3E] ++ (content ++ [0x3C, 0x2F, 0x74, 0x68, 0x3E]))) :=
      rfl
    rw [e]
    apply NoStart_append
    · simp [NoStart, lit_close_tr]
    · apply NoStart_append (hattrs _)
      apply NoStart_append
      · simp [NoStart, lit_close_tr]
      · apply NoStart_append
        · exact hcontent _
        · simp [NoStart, lit_close_tr]

theorem NoStart_tr_renderCells (cells : List Cell) (G : Str)
    (h : ∀ c ∈ cells, wellFormedCell c) :
    NoStart (lit "</tr>") (renderCells cells) (0x3C :: G) := by
  induction cells with
  | nil => trivial
  | cons c cs ih =>
    have hc := h c (List.mem_cons_self c cs)
    rw [renderCells]
    apply NoStart_append (NoStart_tr_renderCell c _ hc)
    apply NoStart_append _ (ih (fun d hd => h d (List.mem_cons_of_mem c hd)))
    obtain ⟨G2, hG2⟩ := head_append_lt (renderCells cs) G (renderCells_head cs)
    rw [hG2]
    exact NoStart_tr_gap c.after G2 hc.2.2.2

theorem NoStart_tr_rowBody (r : Row) (G : Str) (h : wellFormedRow r) :
    NoStart (lit "</tr>") (rowBody r) (0x3C :: G) := by
  unfold rowBody
  apply NoStart_append _ (NoStart_tr_renderCells r.cells G h.2.2.1)
  obtain ⟨G2, hG2⟩ := head_append_lt (renderCells r.cells) G (renderCells_head r.cells)
  rw [hG2]
  exact NoStart_tr_gap r.before G2 h.2.1

theorem renderRow_length (r : Row) :
    (renderRow r).length = 3 + r.attrs.length + 1 + (rowBody r).length + 5 := by
  simp [renderRow, lit_tr, lit_gt, lit_close_tr]
  omega

theorem renderRow_ne_nil (r : Row) : renderRow r ≠ [] := by
  intro h
  have := congrArg List.length h
  rw [renderRow_length, List.length_nil] at this
  omega

theorem renderRows_head (rows : List Row) :
    renderRows rows = [] ∨ ∃ G, renderRows rows = 0x3C :: G := by
  cases rows with
  | nil => exact Or.inl rfl
  | cons r rs => exact Or.inr ⟨_, rfl⟩

/-- The row expression matches a rendered row and captures its body. -/
theorem rowMatchAt_renderRow (r : Row) (rest : Str) (h : wellFormedRow r) :
    rowMatchAt (renderRow r ++ rest) = some (rowBody r, (renderRow r).length) := by
  have e : renderRow r ++ rest
      = 0x3C :: 0x74 :: 0x72 :: (r.attrs ++ 0x3E :: (rowBody r ++ (lit "</tr>" ++ rest))) := by
    simp [renderRow, lit_tr, lit_gt]
  have hidx : stringsIndex (rowBody r ++ (lit "</tr>" ++ rest)) (lit "</tr>")
      = some (rowBody r).length := by
    apply stringsIndex_append_of_NoStart
    have e2 : lit "</tr>" ++ rest = 0x3C :: ([0x2F, 0x74, 0x72, 0x3E] ++ rest) := rfl
    rw [e2]
    exact NoStart_tr_rowBody r _ h
  rw [renderRow_length, e]
  unfold rowMatchAt
  rw [if_pos (isPrefixOf_open_tr _), List.drop_succ_cons, List.drop_succ_cons,
    List.drop_succ_cons, List.drop_zero, stringsIndex_gt r.attrs _ h.1]
  simp only
  rw [drop_open_tag, hidx]
  simp only [List.take_left]

/-- The row expression finds the rows of a rendered table, in order. -/
theorem findAllFrom_renderRows (rows : List Row) (h : ∀ r ∈ rows, wellFormedRow r) :
    findAllFrom rowMatchAt 0 (renderRows rows) = rows.map rowBody := by
  induction rows with
  | nil => rfl
  | cons r rs ih =>
    have hr := h r (List.mem_cons_self r rs)
    rw [renderRows, findAllFrom_match rowMatchAt _ _ (rowBody r) (renderRow_ne_nil r)
      (rowMatchAt_renderRow r _ hr),
      findAllFrom_skip_NoMatch rowMatchAt _ _
        (NoMatch_rowGap r.after _ hr.2.2.2 (renderRows_head rs)),
      ih (fun row hrow => h row (List.mem_cons_of_mem r hrow))]
    rfl

/-- The rows that the row expression finds in a rendered table. -/
theorem findAllFrom_renderTable (before : Str) (header : Row) (rows : List Row)
    (hb : rowGap before) (h : ∀ r ∈ header :: rows, wellFormedRow r) :
    findAllFrom rowMatchAt 0 (renderTable before header rows)
      = rowBody header :: rows.map rowBody := by
  unfold renderTable
  rw [findAllFrom_skip_NoMatch rowMatchAt _ _
    (NoMatch_rowGap before _ hb (renderRows_head (header :: rows))),
    findAllFrom_renderRows (header :: rows) h]
  rfl

/-- The loop body of `extractFromTable` on a rendered data row. -/
theorem rowRecord_rowBody (r : Row) (hr : wellFormedRow r) (hlen : 3 ≤ r.cells.length)
    (hname : cleanHTML (cellContent r 0) ≠ [] ∨ cleanHTML (cellContent r 1) ≠ []) :
    rowRecord (rowBody r) = some (recordOf r) := by
  unfold rowRecord
  rw [findAllFrom_rowBody r hr]
  obtain ⟨attrs, before, cells, after⟩ := r
  simp only at hlen
  rcases cells with _ | ⟨c0, _ | ⟨c1, _ | ⟨c2, more⟩⟩⟩
  · simp at hlen
  · simp at hlen
  · simp at hlen
  · simp only [cellContent, List.map_cons, List.getD_cons_zero, List.getD_cons_succ] at hname
    simp only [List.map_cons, hname, if_true]
    cases more with
    | nil => simp [recordOf, cellContent]
    | cons c3 more2 => simp [recordOf, cellContent]

set_option maxRecDepth 100000 in
/-- C1 as stated fails: the table of the header row and the data row
`["Jane Doe", "12345", "Example University"]` whose first cell carries the
attribute `title="a>b"` satisfies the conditions of the claim (three cells,
contents without row or cell tags, a non-empty cleaned cell 0), and
`extractFromTable` returns the name `b">Jane Doe`, not `Jane Doe`: the
expression `<t[dh][^>]*>` ends the opening tag at the first `>`. -/
theorem extractFromTable_attribute_with_gt :
    renderTable (lit "<table>") plainHeader [rowAttributeWithGt]
        = lit "<table><tr><th>Nama</th><th>NIM</th><th>PT</th></tr><tr><td title=\"a>b\">Jane Doe</td><td>12345</td><td>Example University</td></tr></table>"
      ∧ 3 ≤ rowAttributeWithGt.cells.length
      ∧ (∀ c ∈ rowAttributeWithGt.cells, noRowOrCellTag c.content)
      ∧ cleanHTML (cellContent rowAttributeWithGt 0) ≠ []
      ∧ recordOf rowAttributeWithGt
          = ⟨lit "Jane Doe", lit "12345", lit "Example University", []⟩
      ∧ extractFromTable (renderTable (lit "<table>") plainHeader [rowAttributeWithGt])
          = [⟨lit "b\">Jane Doe", lit "12345", lit "Example University", []⟩]
      ∧ extractFromTable (renderTable (lit "<table>") plainHeader [rowAttributeWithGt])
          ≠ [rowAttributeWithGt].map recordOf := by
  unfold noRowOrCellTag
  decide

/-- C1 as amended: on the markup of a table of one header row followed by N
data rows, written with lower-case `<tr>`, `<td>` and `<th>` tags, where no
attribute text of a row or cell tag contains `>` (nor ends in `</tr` on a
cell), the text around the rows contains no `<tr`, the text around the cells
contains no `<td`, `<th` or `</tr>`, every cell content is free of closing row
and cell tags, and every data row has at least three cells and a non-empty
cleaned cell 0 or cell 1, `extractFromTable` returns exactly the N records of
the data rows, in row order: Name, NIM and University are the cleaned cells 0,
1 and 2, and Program is the cleaned cell 3 when there is one and empty
otherwise.  The header row gives no record. -/
theorem extractFromTable_renderTable (before : Str) (header : Row) (rows : List Row)
    (hbefore : rowGap before) (hheader : wellFormedRow header)
    (hrows : ∀ r ∈ rows, wellFormedRow r ∧ 3 ≤ r.cells.length
      ∧ (cleanHTML (cellContent r 0) ≠ [] ∨ cleanHTML (cellContent r 1) ≠ [])) :
    extractFromTable (renderTable before header rows) = rows.map recordOf
      ∧ (extractFromTable (renderTable before header rows)).length = rows.length := by
  have key : extractFromTable (renderTable before header rows) = rows.map recordOf := by
    unfold extractFromTable
    rw [findAllFrom_renderTable before header rows hbefore (by
      intro r hr
      rcases List.mem_cons.mp hr with rfl | hr
      · exact hheader
      · exact (hrows r hr).1)]
    simp only [List.drop_succ_cons, List.drop_zero]
    clear hheader
    induction rows with
    | nil => rfl
    | cons r rs ih =>
      have hr := hrows r (List.mem_cons_self r rs)
      rw [List.map_cons, List.filterMap_cons, rowRecord_rowBody r hr.1 hr.2.1 hr.2.2]
      simp only [List.map_cons]
      rw [ih (fun row hrow => hrows row (List.mem_cons_of_mem r hrow))]
  exact ⟨key, by rw [key, List.length_map]⟩

set_option maxRecDepth 100000 in
theorem extractFromTable_renderTable_witness :
    (renderTable (lit "<table>") plainHeader [plainRow]
        = lit "<table><tr><th>Nama</th><th>NIM</th><th>PT</th></tr><tr><td>Jane Doe</td><td>12345</td><td>Example University</td></tr></table>"
      ∧ extractFromTable (renderTable (lit "<table>") plainHeader [plainRow])
        = [⟨lit "Jane Doe", lit "12345", lit "Example University", []⟩])
    ∧ (renderTable (lit "<table id=\"t\">\n<thead>\n") exampleHeader [exampleRow]
        = lit "<table id=\"t\">\n<thead>\n<tr class=\"head\">\n  <th scope=\"col\">Nama</th>\n  <th>NIM</th> <th>Perguruan Tinggi</th>\n</tr>\n</thead>\n<tbody>\n<tr data-id=\"1 < 2\">\n  <td class=\"name\"><b>Jane Doe</b></td>\n  <td> 12345 </td><td>Example University</td><td>Informatics</td>\n</tr>\n</tbody></table>"
      ∧ extractFromTable (renderTable (lit "<table id=\"t\">\n<thead>\n") exampleHeader [exampleRow])
        = [⟨lit "Jane Doe", lit "12345", lit "Example University", lit "Informatics"⟩]) :=
  ⟨⟨by decide,
    (extractFromTable_renderTable (lit "<table>") plainHeader [plainRow]
      (by unfold rowGap; decide)
      (by unfold wellFormedRow wellFormedCell noClosingTag cellGap rowGap; decide)
      (by unfold wellFormedRow wellFormedCell noClosingTag cellGap rowGap; decide)).1.trans
      (by decide)⟩,
   ⟨by decide,
    (extractFromTable_renderTable (lit "<table id=\"t\">\n<thead>\n") exampleHeader [exampleRow]
      (by unfold rowGap; decide)
      (by unfold wellFormedRow wellFormedCell noClosingTag cellGap rowGap; decide)
      (by unfold wellFormedRow wellFormedCell noClosingTag cellGap rowGap; decide)).1.trans
      (by decide)⟩⟩

end Pddikti
